import Mathlib

/-!
Verification of the CSF string-table codec and entry store (package csfutil).

The Go source is shallowly embedded: byte slices become `List Nat` (each
element a byte value `< 256`), Go `uint`/`uint32` values become `Nat` with
explicit `% 2^32` truncation where the code truncates, the sequential file
reader becomes explicit state passing over a `ByteStream`, and fallible
reads return a structured `CSFError` (mirroring the `error` values the code
builds with `fmt.Errorf`, including `%w` wrapping, so that `errors.Is(err,
io.EOF)` can be modelled).  `strings.ToUpper` is modelled on the ASCII
range, which is exact for every label name appearing in the claims.
-/

namespace CSF

/-! ## Bytes, DWORDs and the obfuscation transform -/

/-- Bitwise complement of a byte (`^b` in Go on a `byte` operand). For
`b < 256` this equals `255 - b`. -/
def bnot (b : Nat) : Nat := 255 - b % 256

/-- `binary.LittleEndian.PutUint32`: the four little-endian bytes of `n`
truncated to 32 bits. -/
def putUInt32 (n : Nat) : List Nat :=
  [n % 256, n / 256 % 256, n / 65536 % 256, n / 16777216 % 256]

/-- `binary.LittleEndian.Uint32` on a 4-byte buffer. -/
def uint32LE (b : List Nat) : Nat :=
  b.getD 0 0 + 256 * b.getD 1 0 + 65536 * b.getD 2 0 + 16777216 * b.getD 3 0

/-- The file magic `" FSC"` as bytes. -/
def fscId : List Nat := [32, 70, 83, 67]

/-- The label magic `" LBL"` as bytes. -/
def lblId : List Nat := [32, 76, 66, 76]

/-- The plain value magic `" RTS"` as bytes. -/
def rtsId : List Nat := [32, 82, 84, 83]

/-- The value-with-extra magic `"WRTS"` as bytes. -/
def wrtsId : List Nat := [87, 82, 84, 83]

/-! ## UTF-16 (package unicode/utf16) and UTF-8 byte conversions -/

/-- `utf16.Encode` on a single rune.  Lean `Char` is always a valid Unicode
scalar value, so the replacement-character branch of the Go function is
unreachable. -/
def utf16EncodeChar (c : Char) : List Nat :=
  let v := c.toNat
  if v < 65536 then [v]
  else [55296 + (v - 65536) / 1024, 56320 + (v - 65536) % 1024]

/-- `utf16.Encode` over a rune slice (`[]rune(s)` is `s.data` here). -/
def utf16Units (cs : List Char) : List Nat := (cs.map utf16EncodeChar).flatten

/-- Serialize UTF-16 code units to little-endian byte pairs, as the loop in
`EncodeUTF16` does (`b[i*2] = byte(r); b[i*2+1] = byte(r >> 8)`). -/
def unitsBytes (us : List Nat) : List Nat :=
  (us.map (fun u => [u % 256, u / 256])).flatten

/-- `EncodeUTF16` from encoding.go. -/
def EncodeUTF16 (s : String) : List Nat := unitsBytes (utf16Units s.data)

/-- Read little-endian byte pairs back as UTF-16 code units
(`binary.Read(..., binary.LittleEndian, &ints)`). -/
def pairUp : List Nat → List Nat
  | b0 :: b1 :: t => (b0 + 256 * b1) :: pairUp t
  | _ => []

/-- `utf16.Decode`: combine surrogate pairs, replace unpaired surrogates
with U+FFFD. -/
def utf16DecodeUnits : List Nat → List Char
  | [] => []
  | [u] => if u < 55296 ∨ 57344 ≤ u then [Char.ofNat u] else [Char.ofNat 65533]
  | u :: v :: rest2 =>
    if u < 55296 ∨ 57344 ≤ u then Char.ofNat u :: utf16DecodeUnits (v :: rest2)
    else if u < 56320 then
      if 56320 ≤ v ∧ v < 57344 then
        Char.ofNat (65536 + (u - 55296) * 1024 + (v - 56320)) :: utf16DecodeUnits rest2
      else Char.ofNat 65533 :: utf16DecodeUnits (v :: rest2)
    else Char.ofNat 65533 :: utf16DecodeUnits (v :: rest2)

/-- `DecodeUTF16` from encoding.go: empty input gives the empty string, an
odd byte count is an error (`none`), otherwise decode code units. -/
def DecodeUTF16 (b : List Nat) : Option String :=
  if b = [] then some (String.mk [])
  else if b.length % 2 = 0 then some (String.mk (utf16DecodeUnits (pairUp b)))
  else none

/-- `[]byte(s)` on a Go string: the UTF-8 bytes of one character. -/
def utf8Bytes (c : Char) : List Nat :=
  let v := c.toNat
  if v < 128 then [v]
  else if v < 2048 then [192 + v / 64, 128 + v % 64]
  else if v < 65536 then [224 + v / 4096, 128 + v / 64 % 64, 128 + v % 64]
  else [240 + v / 262144, 128 + v / 4096 % 64, 128 + v / 64 % 64, 128 + v % 64]

/-- `[]byte(s)` on a Go string. -/
def strBytes (s : String) : List Nat := (s.data.map utf8Bytes).flatten

/-- `strings.ToUpper` restricted to the ASCII range, applied bytewise. -/
def upperByte (b : Nat) : Nat := if 97 ≤ b ∧ b ≤ 122 then b - 32 else b

/-- `strings.ToUpper` on a label name held as bytes (ASCII model). -/
def upper (l : List Nat) : List Nat := l.map upperByte

/-! ## Data model (types.go) -/

/-- `Label` from types.go. -/
structure Label where
  Offset : Nat
  StringPairs : Nat
  Value : List Nat
  deriving DecidableEq, Repr

/-- `Value` from types.go. -/
structure Value where
  Offset : Nat
  HaveExtra : Bool
  Value : List Nat
  ExtraValue : List Nat
  deriving DecidableEq, Repr

/-- `LabelValue` from types.go. -/
structure LabelValue where
  Label : Label
  Value : Value
  deriving DecidableEq, Repr

/-- `Label.Bytes`: `" LBL"`, pair count hard-coded to 1, name length,
name bytes. -/
def Label.Bytes (l : Label) : List Nat :=
  lblId ++ putUInt32 1 ++ putUInt32 l.Value.length ++ l.Value

/-- `Label.Write`: store the UTF-8 bytes of `s` as the label name. -/
def Label.Write (l : Label) (s : String) : Label :=
  { l with Value := strBytes s }

/-- `Value.ValueString`: complement every byte, then decode UTF-16; the
decode error is discarded (the empty string is returned). -/
def Value.ValueString (v : CSF.Value) : String :=
  (DecodeUTF16 (v.Value.map bnot)).getD (String.mk [])

/-- `Value.Bytes`: magic (`" RTS"` or `"WRTS"`), code-unit count
(`len/2`), obfuscated text bytes, and for the extra variant the extra
length and raw extra bytes. -/
def Value.Bytes (v : CSF.Value) : List Nat :=
  (if v.HaveExtra then wrtsId else rtsId) ++
    putUInt32 (v.Value.length / 2) ++ v.Value ++
    (if v.HaveExtra then putUInt32 v.ExtraValue.length ++ v.ExtraValue else [])

/-- `Value.Write`: UTF-16 encode then complement every byte in place. -/
def Value.Write (v : CSF.Value) (s : String) : CSF.Value :=
  { v with Value := (EncodeUTF16 s).map bnot }

/-- `Value.WriteExtra`: the extra string is stored as raw UTF-8 bytes,
with no transform. -/
def Value.WriteExtra (v : CSF.Value) (s : String) : CSF.Value :=
  { v with HaveExtra := true, ExtraValue := strBytes s }

/-- `LabelValue.Bytes`. -/
def LabelValue.Bytes (lv : LabelValue) : List Nat :=
  lv.Label.Bytes ++ lv.Value.Bytes

/-- `NewLabelValue` (via `NewLabelValueWithOffset` with offsets 0). -/
def NewLabelValue (label value : String) (extra : Option String) : LabelValue :=
  let l := Label.Write ⟨0, 1, []⟩ label
  let v := Value.Write ⟨0, false, [], []⟩ value
  let v := match extra with
    | some e => Value.WriteExtra v e
    | none => v
  ⟨l, v⟩

/-- The zero `LabelValue`, produced by a Go map read on a missing key. -/
def zeroLV : LabelValue := ⟨⟨0, 0, []⟩, ⟨0, false, [], []⟩⟩

/-! ## Go map and slice helpers

`Values` and `Categories` are Go maps; an association list with unique
keys models them, observed only through `mget`/`mset`/`mdel`. -/

/-- Go map read: the value bound to `k`, if any. -/
def mget {β : Type} : List (List Nat × β) → List Nat → Option β
  | [], _ => none
  | (k', v') :: t, k => if k' = k then some v' else mget t k

/-- Go map write: replace the binding for `k` in place, or add one. -/
def mset {β : Type} : List (List Nat × β) → List Nat → β → List (List Nat × β)
  | [], k, v => [(k, v)]
  | (k', v') :: t, k, v => if k' = k then (k, v) :: t else (k', v') :: mset t k v

/-- Go `delete(m, k)`: drop the binding for `k` (at most one exists). -/
def mdel {β : Type} : List (List Nat × β) → List Nat → List (List Nat × β)
  | [], _ => []
  | (k', v') :: t, k => if k' = k then t else (k', v') :: mdel t k

/-- Remove the first occurrence of `k` (the `RemoveLabelValue` loop with
its `break`). -/
def removeFirst : List (List Nat) → List Nat → List (List Nat)
  | [], _ => []
  | x :: t, k => if x = k then t else x :: removeFirst t k

/-- The last index of `k` in `l` (`for i, s := range r.Order { if s ==
successorUpper { pos = i } }`), or the initial value `l.length` when no
element matches. -/
def lastIdxAux : List (List Nat) → List Nat → Nat → Nat → Nat
  | [], _, _, acc => acc
  | x :: t, k, i, acc => lastIdxAux t k (i + 1) (if x = k then i else acc)

/-- See `lastIdxAux`. -/
def lastIdx (l : List (List Nat)) (k : List Nat) : Nat := lastIdxAux l k 0 l.length

/-- The list produced by `append(append(Order[0:pos], x), Order[pos:l]...)`
in `WriteLabelValueBefore`.  For `pos < l` the inner `append` reuses the
backing array of `Order` (its capacity exceeds `pos`), overwriting
`Order[pos]` with `x` before `Order[pos:l]` is copied by the outer
`append`; the element previously at `pos` is therefore replaced by a
second copy of `x`.  For `pos = l` the result is `Order ++ [x]`. -/
def goInsertBefore (order : List (List Nat)) (x : List Nat) (pos : Nat) : List (List Nat) :=
  (order.take pos ++ [x]) ++ (order.set pos x).drop pos

/-! ## The in-memory table (struct CSFUtil) -/

/-- `CSFUtil` from csfutil.go (the exported state: header scalars, the
`Values` map, the `Categories` map and the `Order` slice). -/
structure CSFUtil where
  Version : Nat
  NumLabels : Nat
  NumStrings : Nat
  Unused : Nat
  Language : Nat
  Values : List (List Nat × LabelValue)
  Categories : List (List Nat × List (List Nat))
  Order : List (List Nat)
  deriving DecidableEq, Repr

/-- The zero `CSFUtil` allocated by `Open` before parsing. -/
def zeroCSF : CSFUtil := ⟨0, 0, 0, 0, 0, [], [], []⟩

/-- `New`: an empty table with the given header scalars. -/
def NewCSF (version unused language : Nat) : CSFUtil :=
  ⟨version, 0, 0, unused, language, [], [], []⟩

/-! ## Errors

Structured stand-ins for the `error` values built with `fmt.Errorf`.
`wrapCtx` models wrapping with `%w` plus a byte offset (`... at %x`), so
`errors.Is(err, io.EOF)` becomes `isEOF`. -/

/-- Which call site wrapped an inner error with an offset. -/
inductive ErrCtx where
  /-- `readHeader`: not a valid CSF file. -/
  | header
  /-- `readLabel`: not a valid label start. -/
  | labelStart
  /-- `readValue`: not a valid value start. -/
  | valueStart
  deriving DecidableEq, Repr

/-- The errors the decoder can produce. -/
inductive CSFError where
  /-- `io.EOF` from a read at end of stream. -/
  | eofE
  /-- `read`: not enough data, want `want` bytes, got `got`. -/
  | notEnough (want got : Nat)
  /-- `readDWORD`: not a dword value. -/
  | notADword
  /-- `checkIdentifier`: not a valid identifier, want `expected`, got `got`. -/
  | badId (expected : List (List Nat)) (got : List Nat)
  /-- `readContent`: too many strings. -/
  | tooMany
  /-- `fmt.Errorf("... reason: %w at %x", inner, offset)`. -/
  | wrapCtx (ctx : ErrCtx) (offset : Nat) (inner : CSFError)
  deriving DecidableEq, Repr

/-- `errors.Is(err, io.EOF)`: unwrap `%w` chains down to `io.EOF`. -/
def CSFError.isEOF : CSFError → Bool
  | .eofE => true
  | .wrapCtx _ _ e => e.isEOF
  | _ => false

/-! ## The sequential reader -/

/-- The byte source: the whole file plus the current read position. -/
structure ByteStream where
  data : List Nat
  pos : Nat
  deriving DecidableEq, Repr

/-- The bytes not yet consumed. -/
def remBytes (s : ByteStream) : List Nat := s.data.drop s.pos

/-- A reader step: a result plus the stream state after the step (kept
also on error, mirroring the file position of the Go reader). -/
abbrev M (α : Type) := ByteStream → Except CSFError α × ByteStream

/-- `read(size)`: `os.File.Read` on a regular file returns `(0, io.EOF)`
at end of stream (for a nonempty buffer), else up to `size` available
bytes; fewer than `size` is the `not enough data` error. -/
def goRead (size : Nat) : M (List Nat) := fun s =>
  let rem := remBytes s
  if size = 0 then (.ok [], s)
  else if rem.isEmpty then (.error .eofE, s)
  else
    let k := min size rem.length
    let s2 : ByteStream := ⟨s.data, s.pos + k⟩
    if k = size then (.ok (rem.take k), s2)
    else (.error (.notEnough size k), s2)

/-- `readDWORD`: read 4 bytes; a partial dword is `not a dword value`. -/
def readDWORD : M (List Nat) := fun s =>
  let rem := remBytes s
  if rem.isEmpty then (.error .eofE, s)
  else
    let k := min 4 rem.length
    let s2 : ByteStream := ⟨s.data, s.pos + k⟩
    if k = 4 then (.ok (rem.take 4), s2)
    else (.error .notADword, s2)

/-- `readUInt`: the next dword as a little-endian 32-bit value. -/
def readUInt : M Nat := fun s =>
  match readDWORD s with
  | (.error e, s1) => (.error e, s1)
  | (.ok d, s1) => (.ok (uint32LE d), s1)

/-- `checkIdentifier`: read a dword and compare it with the expected
identifiers (`bytes.Equal` against each). -/
def checkIdentifier (ids : List (List Nat)) : M (List Nat) := fun s =>
  match readDWORD s with
  | (.error e, s1) => (.error e, s1)
  | (.ok d, s1) =>
    if d ∈ ids then (.ok d, s1) else (.error (.badId ids d), s1)

/-- `readLabel`: identifier, pair count, name length, name bytes.  The
identifier error is wrapped with the record's start offset. -/
def readLabelS : M Label := fun s =>
  let offset := s.pos
  match checkIdentifier [lblId] s with
  | (.error e, s1) => (.error (.wrapCtx .labelStart offset e), s1)
  | (.ok _, s1) =>
    match readUInt s1 with
    | (.error e, s2) => (.error e, s2)
    | (.ok pairs, s2) =>
      match readUInt s2 with
      | (.error e, s3) => (.error e, s3)
      | (.ok len, s3) =>
        match goRead len s3 with
        | (.error e, s4) => (.error e, s4)
        | (.ok value, s4) => (.ok ⟨offset, pairs, value⟩, s4)

/-- `readValue`: identifier (`" RTS"` or `"WRTS"`), code-unit count,
`2*count` text bytes; for `"WRTS"` also the extra length and bytes.  The
Go code overwrites the error of the extra-length `readUInt` before
checking it, so a failed extra-length read is silently treated as length
0 (and `read(0)` always succeeds). -/
def readValueS : M CSF.Value := fun s =>
  let offset := s.pos
  match checkIdentifier [rtsId, wrtsId] s with
  | (.error e, s1) => (.error (.wrapCtx .valueStart offset e), s1)
  | (.ok d, s1) =>
    let hasExtra := d = wrtsId
    match readUInt s1 with
    | (.error e, s2) => (.error e, s2)
    | (.ok len, s2) =>
      match goRead (len * 2) s2 with
      | (.error e, s3) => (.error e, s3)
      | (.ok value, s3) =>
        if hasExtra then
          let r4 := readUInt s3
          let extraLen := match r4.1 with
            | .ok n => n
            | .error _ => 0
          match goRead extraLen r4.2 with
          | (.error e, s5) => (.error e, s5)
          | (.ok extraVal, s5) => (.ok ⟨offset, true, value, extraVal⟩, s5)
        else (.ok ⟨offset, false, value, []⟩, s3)

/-- `readHeader`: file magic then the five header scalars, assigned to
the table fields one by one (fields read before a failure stay set). -/
def readHeaderS (r : CSFUtil) : ByteStream → (CSFUtil × Option CSFError) × ByteStream :=
  fun s =>
  match checkIdentifier [fscId] s with
  | (.error e, s1) => ((r, some (.wrapCtx .header s1.pos e)), s1)
  | (.ok _, s1) =>
    match readUInt s1 with
    | (.error e, s2) => ((r, some e), s2)
    | (.ok v, s2) =>
      let r := { r with Version := v }
      match readUInt s2 with
      | (.error e, s3) => ((r, some e), s3)
      | (.ok nl, s3) =>
        let r := { r with NumLabels := nl }
        match readUInt s3 with
        | (.error e, s4) => ((r, some e), s4)
        | (.ok ns, s4) =>
          let r := { r with NumStrings := ns }
          match readUInt s4 with
          | (.error e, s5) => ((r, some e), s5)
          | (.ok un, s5) =>
            let r := { r with Unused := un }
            match readUInt s5 with
            | (.error e, s6) => ((r, some e), s6)
            | (.ok lg, s6) => ((({ r with Language := lg } : CSFUtil), none), s6)

/-- The accumulator of `readContent`: the local `mapLabelValue`,
`mapCate` and `listOrder`. -/
abbrev Acc := List (List Nat × LabelValue) × List (List Nat × List (List Nat)) × List (List Nat)

/-- Index of the first `:` (byte 58), as `strings.Index` (only used under
a `strings.Contains` guard). -/
def idx58 : List Nat → Nat
  | [] => 0
  | b :: t => if b = 58 then 0 else idx58 t + 1

/-- One iteration of the `readContent` accumulation: on a first
occurrence of the (uppercased) name, record the category — note the
`else` branch binds the category to an *empty* list, dropping this first
label name — and append to the order; first-seen or not, store the pair
under the uppercased name. -/
def foldEntry (acc : Acc) (label : Label) (value : CSF.Value) : Acc :=
  let m := acc.1
  let c := acc.2.1
  let o := acc.2.2
  let labelName := label.Value
  let upperN := upper labelName
  match mget m upperN with
  | some _ => (mset m upperN ⟨label, value⟩, c, o)
  | none =>
    let c2 :=
      if 58 ∈ upperN then
        let catName := upperN.take (idx58 upperN)
        match mget c catName with
        | some list => mset c catName (list ++ [labelName])
        | none => mset c catName []
      else
        match mget c [] with
        | some list => mset c [] (list ++ [labelName])
        | none => mset c [] []
    (mset m upperN ⟨label, value⟩, c2, o ++ [upperN])

/-- The `readContent` loop.  `remaining` counts how many further entries
may complete before `counter > 20000` triggers `too many strings`; an
EOF-rooted error from `readLabel` or `readValue` ends the table
normally. -/
def readContentLoop : Nat → Acc → M Acc := fun remaining acc s =>
  match readLabelS s with
  | (.error e, s1) => if e.isEOF then (.ok acc, s1) else (.error e, s1)
  | (.ok label, s1) =>
    match readValueS s1 with
    | (.error e, s2) => if e.isEOF then (.ok acc, s2) else (.error e, s2)
    | (.ok value, s2) =>
      let acc2 := foldEntry acc label value
      match remaining with
      | 0 => (.error .tooMany, s2)
      | r + 1 => readContentLoop r acc2 s2

/-- `openAndParse` on an in-memory byte source: header then content; the
`Values`/`Categories`/`Order` fields are only assigned when the whole
content parse succeeds. -/
def openAndParse (data : List Nat) : CSFUtil × Option CSFError :=
  match readHeaderS zeroCSF ⟨data, 0⟩ with
  | ((r1, some e), _) => (r1, some e)
  | ((r1, none), s1) =>
    match readContentLoop 20000 ([], [], []) s1 with
    | (.error e, _) => (r1, some e)
    | (.ok acc, _) =>
      ({ r1 with Values := acc.1, Categories := acc.2.1, Order := acc.2.2 }, none)

/-! ## Mutation (csfutil.go) -/

/-- `WriteLabelValueBefore`.  `successor` is the Go string argument as
bytes.  Overwriting an existing name replaces its value (preserving the
stored label casing unless `overwriteLabel`); a new name with an existing
successor goes through the aliasing `append` (see `goInsertBefore`); any
other new name is appended. -/
def writeLabelValueBefore (r : CSFUtil) (lv : LabelValue) (overwriteLabel : Bool)
    (successor : List Nat) : CSFUtil :=
  let successorUpper := upper successor
  let labelNameUpper := upper lv.Label.Value
  match mget r.Values labelNameUpper with
  | some old =>
    let lv2 := if !overwriteLabel then { lv with Label := { lv.Label with Value := old.Label.Value } } else lv
    let vals := mset r.Values labelNameUpper lv2
    { r with Values := vals, NumLabels := vals.length, NumStrings := vals.length }
  | none =>
    match mget r.Values successorUpper with
    | some _ =>
      let pos := lastIdx r.Order successorUpper
      let vals := mset r.Values labelNameUpper lv
      { r with Values := vals, Order := goInsertBefore r.Order labelNameUpper pos,
               NumLabels := vals.length, NumStrings := vals.length }
    | none =>
      let vals := mset r.Values labelNameUpper lv
      { r with Values := vals, Order := r.Order ++ [labelNameUpper],
               NumLabels := vals.length, NumStrings := vals.length }

/-- `WriteLabelValue`: `WriteLabelValueBefore` with the empty successor. -/
def writeLabelValue (r : CSFUtil) (lv : LabelValue) (overwriteLabel : Bool) : CSFUtil :=
  writeLabelValueBefore r lv overwriteLabel []

/-- `RemoveLabelValue`: an early return on an empty order; otherwise
delete the key and remove the first matching order entry. -/
def removeLabelValue (r : CSFUtil) (name : List Nat) : CSFUtil :=
  if r.Order = [] then r
  else
    let upperName := upper name
    let vals := mdel r.Values upperName
    { r with Values := vals, Order := removeFirst r.Order upperName,
             NumLabels := vals.length, NumStrings := vals.length }

/-- The byte stream `Save` writes: header scalars truncated to 32 bits,
then for each name in `Order` the bytes of its `Values` entry (a missing
key yields the zero `LabelValue`, as a Go map read does). -/
def saveBytes (r : CSFUtil) : List Nat :=
  fscId ++ putUInt32 r.Version ++ putUInt32 r.NumLabels ++ putUInt32 r.NumStrings ++
    putUInt32 r.Unused ++ putUInt32 r.Language ++
    (r.Order.map (fun k => ((mget r.Values k).getD zeroLV).Bytes)).flatten

/-- The byte stream of a header plus a list of entry records; decoding a
"well-formed CSF byte stream" in the claims means decoding such an
encoder image. -/
def encodeCSF (v nl ns un lg : Nat) (es : List LabelValue) : List Nat :=
  fscId ++ putUInt32 v ++ putUInt32 nl ++ putUInt32 ns ++ putUInt32 un ++ putUInt32 lg ++
    (es.map LabelValue.Bytes).flatten

/-! ## The byte transform and text codec (claim C7) -/

theorem bnot_bnot {b : Nat} (h : b < 256) : bnot (bnot b) = b := by
  unfold bnot; omega

theorem map_bnot_bnot {l : List Nat} (h : ∀ b ∈ l, b < 256) :
    (l.map bnot).map bnot = l := by
  induction l with
  | nil => rfl
  | cons b t ih =>
    simp only [List.map_cons, List.cons.injEq]
    exact ⟨bnot_bnot (h b (by simp)), ih (fun x hx => h x (by simp [hx]))⟩

theorem char_valid_cases (c : Char) :
    c.toNat < 55296 ∨ (57344 ≤ c.toNat ∧ c.toNat < 1114112) := c.valid

theorem utf16Units_lt {cs : List Char} : ∀ u ∈ utf16Units cs, u < 65536 := by
  induction cs with
  | nil => intro u hu; simp [utf16Units] at hu
  | cons c t ih =>
    intro u hu
    simp only [utf16Units, List.map_cons, List.flatten_cons, List.mem_append] at hu
    rcases hu with hu | hu
    · have hv := char_valid_cases c
      unfold utf16EncodeChar at hu
      by_cases hb : c.toNat < 65536
      · simp only [hb, if_pos] at hu
        simp at hu; omega
      · simp only [hb, if_neg, not_false_iff] at hu
        simp at hu
        have h1 : (c.toNat - 65536) % 1024 < 1024 := Nat.mod_lt _ (by norm_num)
        have h2 : (c.toNat - 65536) / 1024 ≤ 1023 := by omega
        omega
    · exact ih u hu

theorem unitsBytes_lt {us : List Nat} (h : ∀ u ∈ us, u < 65536) :
    ∀ b ∈ unitsBytes us, b < 256 := by
  induction us with
  | nil => intro b hb; simp [unitsBytes] at hb
  | cons u t ih =>
    intro b hb
    simp only [unitsBytes, List.map_cons, List.flatten_cons, List.mem_append] at hb
    rcases hb with hb | hb
    · have hu := h u (by simp)
      simp at hb
      have : u % 256 < 256 := Nat.mod_lt _ (by norm_num)
      have : u / 256 < 256 := by omega
      omega
    · exact ih (fun x hx => h x (by simp [hx])) b hb

theorem pairUp_unitsBytes {us : List Nat} : pairUp (unitsBytes us) = us := by
  induction us with
  | nil => rfl
  | cons u t ih =>
    simp only [unitsBytes, List.map_cons, List.flatten_cons] at *
    show pairUp (u % 256 :: u / 256 :: unitsBytes t) = u :: t
    unfold pairUp
    rw [Nat.mod_add_div u 256]
    exact congrArg (u :: ·) ih

theorem utf16DecodeUnits_cons_bmp {u : Nat} (h : u < 55296 ∨ 57344 ≤ u)
    (rest : List Nat) :
    utf16DecodeUnits (u :: rest) = Char.ofNat u :: utf16DecodeUnits rest := by
  cases rest with
  | nil => simp [utf16DecodeUnits, h]
  | cons v r2 => simp [utf16DecodeUnits, h]

theorem utf16DecodeUnits_cons_pair {u v : Nat}
    (hu1 : 55296 ≤ u) (hu2 : u < 56320) (hv1 : 56320 ≤ v) (hv2 : v < 57344)
    (rest : List Nat) :
    utf16DecodeUnits (u :: v :: rest) =
      Char.ofNat (65536 + (u - 55296) * 1024 + (v - 56320)) :: utf16DecodeUnits rest := by
  have hna : ¬(u < 55296 ∨ 57344 ≤ u) := by omega
  simp [utf16DecodeUnits, hna, hu2, hv1, hv2]

theorem utf16_decode_encode (cs : List Char) :
    utf16DecodeUnits (utf16Units cs) = cs := by
  induction cs with
  | nil => rfl
  | cons c t ih =>
    have hv := char_valid_cases c
    show utf16DecodeUnits (utf16EncodeChar c ++ utf16Units t) = c :: t
    by_cases hb : c.toNat < 65536
    · have henc : utf16EncodeChar c = [c.toNat] := by simp [utf16EncodeChar, hb]
      rw [henc, List.cons_append, List.nil_append,
        utf16DecodeUnits_cons_bmp (by omega), ih, Char.ofNat_toNat]
    · have henc : utf16EncodeChar c =
          [55296 + (c.toNat - 65536) / 1024, 56320 + (c.toNat - 65536) % 1024] := by
        simp [utf16EncodeChar, hb]
      have hq : (c.toNat - 65536) / 1024 ≤ 1023 := by omega
      have hr : (c.toNat - 65536) % 1024 < 1024 := Nat.mod_lt _ (by norm_num)
      have hdm : 1024 * ((c.toNat - 65536) / 1024) + (c.toNat - 65536) % 1024
          = c.toNat - 65536 := Nat.div_add_mod _ 1024
      rw [henc, List.cons_append, List.cons_append, List.nil_append,
        utf16DecodeUnits_cons_pair (by omega) (by omega) (by omega) (by omega), ih]
      have harg : 65536 + (55296 + (c.toNat - 65536) / 1024 - 55296) * 1024 +
          (56320 + (c.toNat - 65536) % 1024 - 56320) = c.toNat := by omega
      rw [harg, Char.ofNat_toNat]

theorem unitsBytes_length (us : List Nat) : (unitsBytes us).length = 2 * us.length := by
  induction us with
  | nil => rfl
  | cons u t ih => simp [unitsBytes, List.length_append] at *; omega

theorem EncodeUTF16_ne_nil {s : String} (h : s.data ≠ []) : EncodeUTF16 s ≠ [] := by
  unfold EncodeUTF16
  cases hd : s.data with
  | nil => exact absurd hd h
  | cons c t =>
    have : utf16Units (c :: t) = utf16EncodeChar c ++ utf16Units t := rfl
    rw [this]
    by_cases hb : c.toNat < 65536
    · simp [utf16EncodeChar, hb, unitsBytes]
    · simp [utf16EncodeChar, hb, unitsBytes]

theorem DecodeUTF16_EncodeUTF16 (s : String) :
    DecodeUTF16 (EncodeUTF16 s) = some s := by
  by_cases hd : s.data = []
  · have he : EncodeUTF16 s = [] := by
      unfold EncodeUTF16 utf16Units
      rw [hd]; rfl
    rw [he]
    cases s with
    | mk d =>
      have hd2 : d = [] := hd
      subst hd2
      rfl
  · have hne := EncodeUTF16_ne_nil hd
    unfold DecodeUTF16
    rw [if_neg hne]
    have hlen : (EncodeUTF16 s).length % 2 = 0 := by
      unfold EncodeUTF16; rw [unitsBytes_length]; omega
    rw [if_pos hlen]
    show some (String.mk (utf16DecodeUnits (pairUp (unitsBytes (utf16Units s.data))))) = some s
    rw [pairUp_unitsBytes, utf16_decode_encode]

/-- Claim C7: complementing every byte twice is the identity on byte
sequences; decoding (complement, then UTF-16LE decode) the wire form
produced by encoding a string (UTF-16LE encode, then complement) yields
the string again; and the extra-value field is never transformed —
`Value.Write` leaves it untouched and `Value.WriteExtra` stores the raw
bytes verbatim. -/
theorem c7_transform_involution :
    (∀ bs : List Nat, (∀ b ∈ bs, b < 256) → (bs.map bnot).map bnot = bs) ∧
    (∀ (v : CSF.Value) (s : String), (v.Write s).ValueString = s) ∧
    (∀ (v : CSF.Value) (s : String),
      (v.Write s).HaveExtra = v.HaveExtra ∧ (v.Write s).ExtraValue = v.ExtraValue) ∧
    (∀ (v : CSF.Value) (s : String), (v.WriteExtra s).ExtraValue = strBytes s) := by
  refine ⟨fun bs h => map_bnot_bnot h, fun v s => ?_, fun v s => ⟨rfl, rfl⟩, fun v s => rfl⟩
  have hX : ∀ b ∈ EncodeUTF16 s, b < 256 := unitsBytes_lt utf16Units_lt
  show (DecodeUTF16 (((EncodeUTF16 s).map bnot).map bnot)).getD (String.mk []) = s
  rw [map_bnot_bnot hX, DecodeUTF16_EncodeUTF16]
  rfl

/-- Witness for C7 at concrete inputs. -/
theorem c7_transform_involution_witness :
    (([7, 255].map bnot).map bnot = [7, 255]) ∧
    ((Value.Write ⟨0, false, [], []⟩ (r"a€𝄞")).ValueString = (r"a€𝄞")) :=
  ⟨c7_transform_involution.1 [7, 255] (by decide),
   c7_transform_involution.2.1 ⟨0, false, [], []⟩ (r"a€𝄞")⟩

/-! ## Reader lemmas -/

theorem drop_chunk {data X Y : List Nat} {p : Nat}
    (h : data.drop p = X ++ Y) : data.drop (p + X.length) = Y := by
  rw [← List.drop_drop X.length p data, h, List.drop_left]

theorem goRead_ok {s : ByteStream} {bs rest : List Nat} (h : remBytes s = bs ++ rest) :
    goRead bs.length s = (.ok bs, ⟨s.data, s.pos + bs.length⟩) := by
  unfold goRead
  rw [h]
  cases bs with
  | nil =>
    simp only [List.length_nil, if_pos rfl]
    cases s
    simp
  | cons b t =>
    have hemp : ((b :: t ++ rest)).isEmpty = false := rfl
    have hsz : ¬((b :: t).length = 0) := by simp
    have hmin : min (b :: t).length (b :: t ++ rest).length = (b :: t).length := by
      simp only [List.length_append]
      omega
    have ht : (b :: t ++ rest).take (b :: t).length = b :: t := List.take_left _ _
    simp only [hsz, if_false, hemp, Bool.false_eq_true, hmin, if_true, ht]

theorem readDWORD_ok {s : ByteStream} {bs rest : List Nat}
    (h : remBytes s = bs ++ rest) (hl : bs.length = 4) :
    readDWORD s = (.ok bs, ⟨s.data, s.pos + 4⟩) := by
  unfold readDWORD
  rw [h]
  cases bs with
  | nil => simp at hl
  | cons b t =>
    have hemp : ((b :: t ++ rest)).isEmpty = false := rfl
    have hmin : min 4 (b :: t ++ rest).length = 4 := by
      simp only [List.length_append, List.length_cons] at hl ⊢
      omega
    have ht : (b :: t ++ rest).take (b :: t).length = b :: t := List.take_left _ _
    rw [hl] at ht
    simp only [hemp, Bool.false_eq_true, if_false, hmin, if_true, ht]

theorem uint32LE_putUInt32 (n : Nat) : uint32LE (putUInt32 n) = n % 4294967296 := by
  unfold uint32LE putUInt32
  simp [List.getD]
  omega

theorem putUInt32_mod (n : Nat) : putUInt32 (n % 4294967296) = putUInt32 n := by
  unfold putUInt32
  simp only [List.cons.injEq, and_true]
  refine ⟨by omega, by omega, by omega, by omega⟩

theorem putUInt32_length (n : Nat) : (putUInt32 n).length = 4 := rfl

theorem readUInt_ok {s : ByteStream} {n : Nat} {rest : List Nat}
    (h : remBytes s = putUInt32 n ++ rest) :
    readUInt s = (.ok (n % 4294967296), ⟨s.data, s.pos + 4⟩) := by
  unfold readUInt
  rw [readDWORD_ok h (putUInt32_length n)]
  show (Except.ok (uint32LE (putUInt32 n)), (⟨s.data, s.pos + 4⟩ : ByteStream)) = _
  rw [uint32LE_putUInt32]

theorem checkIdentifier_ok {s : ByteStream} {bs rest : List Nat} {ids : List (List Nat)}
    (h : remBytes s = bs ++ rest) (hl : bs.length = 4) (hm : bs ∈ ids) :
    checkIdentifier ids s = (.ok bs, ⟨s.data, s.pos + 4⟩) := by
  unfold checkIdentifier
  rw [readDWORD_ok h hl]
  show (if bs ∈ ids then (Except.ok bs, (⟨s.data, s.pos + 4⟩ : ByteStream))
    else (Except.error (CSFError.badId ids bs), (⟨s.data, s.pos + 4⟩ : ByteStream))) = _
  rw [if_pos hm]

theorem readLabelS_ok {s : ByteStream} {l : Label} {rest : List Nat}
    (h : remBytes s = l.Bytes ++ rest) (hlen : l.Value.length < 4294967296) :
    readLabelS s = (.ok ⟨s.pos, 1, l.Value⟩, ⟨s.data, s.pos + l.Bytes.length⟩) := by
  have h0 : remBytes s =
      lblId ++ (putUInt32 1 ++ (putUInt32 l.Value.length ++ (l.Value ++ rest))) := by
    rw [h]; simp [Label.Bytes, List.append_assoc]
  have hid : checkIdentifier [lblId] s = (.ok lblId, ⟨s.data, s.pos + 4⟩) :=
    checkIdentifier_ok h0 rfl (by simp)
  have h1 : remBytes (⟨s.data, s.pos + 4⟩ : ByteStream) =
      putUInt32 1 ++ (putUInt32 l.Value.length ++ (l.Value ++ rest)) := by
    show s.data.drop (s.pos + 4) = _
    have := drop_chunk h0
    simpa using this
  have hu1 : readUInt (⟨s.data, s.pos + 4⟩ : ByteStream) =
      (.ok (1 % 4294967296), ⟨s.data, s.pos + 4 + 4⟩) := readUInt_ok h1
  have h2 : remBytes (⟨s.data, s.pos + 4 + 4⟩ : ByteStream) =
      putUInt32 l.Value.length ++ (l.Value ++ rest) := by
    show s.data.drop (s.pos + 4 + 4) = _
    have := drop_chunk h1
    simpa [Nat.add_assoc] using this
  have hu2 : readUInt (⟨s.data, s.pos + 4 + 4⟩ : ByteStream) =
      (.ok (l.Value.length % 4294967296), ⟨s.data, s.pos + 4 + 4 + 4⟩) := readUInt_ok h2
  have h3 : remBytes (⟨s.data, s.pos + 4 + 4 + 4⟩ : ByteStream) = l.Value ++ rest := by
    show s.data.drop (s.pos + 4 + 4 + 4) = _
    have := drop_chunk h2
    simpa [Nat.add_assoc] using this
  have hmod : l.Value.length % 4294967296 = l.Value.length := Nat.mod_eq_of_lt hlen
  have hg : goRead l.Value.length (⟨s.data, s.pos + 4 + 4 + 4⟩ : ByteStream) =
      (.ok l.Value, ⟨s.data, s.pos + 4 + 4 + 4 + l.Value.length⟩) := goRead_ok h3
  have hlb : l.Bytes.length = 12 + l.Value.length := by
    simp [Label.Bytes, lblId, putUInt32]; omega
  have hpos : s.pos + 4 + 4 + 4 + l.Value.length = s.pos + l.Bytes.length := by
    rw [hlb]; omega
  simp only [readLabelS, hid, hu1, hu2, hmod, hg, Nat.reduceMod]
  rw [hpos]

theorem readLabelS_eof {s : ByteStream} (h : remBytes s = []) :
    readLabelS s = (.error (.wrapCtx .labelStart s.pos .eofE), s) := by
  have hdw : readDWORD s = (.error .eofE, s) := by
    unfold readDWORD
    rw [h]
    rfl
  have hid : checkIdentifier [lblId] s = (.error .eofE, s) := by
    unfold checkIdentifier
    rw [hdw]
  simp only [readLabelS, hid]

theorem value_dec_bytes (p q : Nat) (v : CSF.Value) :
    Value.Bytes ⟨p, v.HaveExtra, v.Value, if v.HaveExtra then v.ExtraValue else []⟩ =
      Value.Bytes ⟨q, v.HaveExtra, v.Value, v.ExtraValue⟩ := by
  cases hx : v.HaveExtra <;> simp [Value.Bytes, hx]

theorem readValueS_ok {s : ByteStream} {v : CSF.Value} {rest : List Nat}
    (h : remBytes s = v.Bytes ++ rest) (hev : v.Value.length % 2 = 0)
    (hl : v.Value.length < 8589934592) (he : v.ExtraValue.length < 4294967296) :
    readValueS s = (.ok ⟨s.pos, v.HaveExtra, v.Value, if v.HaveExtra then v.ExtraValue else []⟩,
      ⟨s.data, s.pos + v.Bytes.length⟩) := by
  cases hx : v.HaveExtra
  case false =>
    have h0 : remBytes s =
        rtsId ++ (putUInt32 (v.Value.length / 2) ++ (v.Value ++ rest)) := by
      rw [h]; simp [Value.Bytes, hx, List.append_assoc]
    have hid : checkIdentifier [rtsId, wrtsId] s = (.ok rtsId, ⟨s.data, s.pos + 4⟩) :=
      checkIdentifier_ok h0 rfl (by simp)
    have h1 : remBytes (⟨s.data, s.pos + 4⟩ : ByteStream) =
        putUInt32 (v.Value.length / 2) ++ (v.Value ++ rest) := by
      show s.data.drop (s.pos + 4) = _
      have := drop_chunk h0
      simpa using this
    have hu1 : readUInt (⟨s.data, s.pos + 4⟩ : ByteStream) =
        (.ok (v.Value.length / 2 % 4294967296), ⟨s.data, s.pos + 4 + 4⟩) := readUInt_ok h1
    have h2 : remBytes (⟨s.data, s.pos + 4 + 4⟩ : ByteStream) = v.Value ++ rest := by
      show s.data.drop (s.pos + 4 + 4) = _
      have := drop_chunk h1
      simpa [Nat.add_assoc] using this
    have hmod : v.Value.length / 2 % 4294967296 = v.Value.length / 2 := by omega
    have htwo : v.Value.length / 2 * 2 = v.Value.length := by omega
    have hg : goRead (v.Value.length / 2 * 2) (⟨s.data, s.pos + 4 + 4⟩ : ByteStream) =
        (.ok v.Value, ⟨s.data, s.pos + 4 + 4 + v.Value.length⟩) := by
      rw [htwo]; exact goRead_ok h2
    have hlb : v.Bytes.length = 8 + v.Value.length := by
      simp [Value.Bytes, hx, rtsId, putUInt32]; omega
    have hpos : s.pos + 4 + 4 + v.Value.length = s.pos + v.Bytes.length := by
      rw [hlb]; omega
    have hne : (rtsId = wrtsId) = False := by simp [rtsId, wrtsId]
    simp only [readValueS, hid, hne, hu1, hmod, hg, if_false, hx]
    rw [hpos]
    simp
  case true =>
    have h0 : remBytes s =
        wrtsId ++ (putUInt32 (v.Value.length / 2) ++ (v.Value ++
          (putUInt32 v.ExtraValue.length ++ (v.ExtraValue ++ rest)))) := by
      rw [h]; simp [Value.Bytes, hx, List.append_assoc]
    have hid : checkIdentifier [rtsId, wrtsId] s = (.ok wrtsId, ⟨s.data, s.pos + 4⟩) :=
      checkIdentifier_ok h0 rfl (by simp)
    have h1 : remBytes (⟨s.data, s.pos + 4⟩ : ByteStream) =
        putUInt32 (v.Value.length / 2) ++ (v.Value ++
          (putUInt32 v.ExtraValue.length ++ (v.ExtraValue ++ rest))) := by
      show s.data.drop (s.pos + 4) = _
      have := drop_chunk h0
      simpa using this
    have hu1 : readUInt (⟨s.data, s.pos + 4⟩ : ByteStream) =
        (.ok (v.Value.length / 2 % 4294967296), ⟨s.data, s.pos + 4 + 4⟩) := readUInt_ok h1
    have h2 : remBytes (⟨s.data, s.pos + 4 + 4⟩ : ByteStream) =
        v.Value ++ (putUInt32 v.ExtraValue.length ++ (v.ExtraValue ++ rest)) := by
      show s.data.drop (s.pos + 4 + 4) = _
      have := drop_chunk h1
      simpa [Nat.add_assoc] using this
    have hmod : v.Value.length / 2 % 4294967296 = v.Value.length / 2 := by omega
    have htwo : v.Value.length / 2 * 2 = v.Value.length := by omega
    have hg : goRead (v.Value.length / 2 * 2) (⟨s.data, s.pos + 4 + 4⟩ : ByteStream) =
        (.ok v.Value, ⟨s.data, s.pos + 4 + 4 + v.Value.length⟩) := by
      rw [htwo]; exact goRead_ok h2
    have h3 : remBytes (⟨s.data, s.pos + 4 + 4 + v.Value.length⟩ : ByteStream) =
        putUInt32 v.ExtraValue.length ++ (v.ExtraValue ++ rest) := by
      show s.data.drop (s.pos + 4 + 4 + v.Value.length) = _
      have := drop_chunk h2
      simpa [Nat.add_assoc] using this
    have hu2 : readUInt (⟨s.data, s.pos + 4 + 4 + v.Value.length⟩ : ByteStream) =
        (.ok (v.ExtraValue.length % 4294967296),
          ⟨s.data, s.pos + 4 + 4 + v.Value.length + 4⟩) := readUInt_ok h3
    have hmod2 : v.ExtraValue.length % 4294967296 = v.ExtraValue.length :=
      Nat.mod_eq_of_lt he
    have h4 : remBytes (⟨s.data, s.pos + 4 + 4 + v.Value.length + 4⟩ : ByteStream) =
        v.ExtraValue ++ rest := by
      show s.data.drop (s.pos + 4 + 4 + v.Value.length + 4) = _
      have := drop_chunk h3
      simpa [Nat.add_assoc] using this
    have hg2 : goRead v.ExtraValue.length
        (⟨s.data, s.pos + 4 + 4 + v.Value.length + 4⟩ : ByteStream) =
        (.ok v.ExtraValue, ⟨s.data, s.pos + 4 + 4 + v.Value.length + 4 + v.ExtraValue.length⟩) :=
      goRead_ok h4
    have hlb : v.Bytes.length = 12 + v.Value.length + v.ExtraValue.length := by
      simp [Value.Bytes, hx, wrtsId, putUInt32, List.length_append]; omega
    have hpos : s.pos + 4 + 4 + v.Value.length + 4 + v.ExtraValue.length =
        s.pos + v.Bytes.length := by
      rw [hlb]; omega
    have heq : (wrtsId = wrtsId) = True := by simp
    simp only [readValueS, hid, heq, hu1, hmod, hg, hu2, hmod2, hg2, if_true, hx]
    rw [hpos]

/-! ## Decoding loop lemmas -/

/-- Side conditions under which an entry's encoding parses back: name and
length fields fit in 32 bits and the text length is even. -/
def Canon (e : LabelValue) : Prop :=
  e.Label.Value.length < 4294967296 ∧ e.Value.Value.length % 2 = 0 ∧
  e.Value.Value.length < 8589934592 ∧ e.Value.ExtraValue.length < 4294967296

/-- The entry decoded from `e.Bytes` at stream position `p`: offsets are
stream positions, the pair count reads back as 1, and a missing extra
section decodes as the empty byte list. -/
def decPair (e : LabelValue) (p : Nat) : LabelValue :=
  ⟨⟨p, 1, e.Label.Value⟩,
   ⟨p + e.Label.Bytes.length, e.Value.HaveExtra, e.Value.Value,
    if e.Value.HaveExtra then e.Value.ExtraValue else []⟩⟩

/-- The decoded entry keeps the name and serializes to the same bytes. -/
def DecMatch (e e' : LabelValue) : Prop :=
  e'.Label.Value = e.Label.Value ∧ e'.Bytes = e.Bytes

theorem decPair_match (e : LabelValue) (p : Nat) : DecMatch e (decPair e p) := by
  refine ⟨rfl, ?_⟩
  show Label.Bytes ⟨p, 1, e.Label.Value⟩ ++
      Value.Bytes ⟨p + e.Label.Bytes.length, e.Value.HaveExtra, e.Value.Value,
        if e.Value.HaveExtra then e.Value.ExtraValue else []⟩ =
    e.Label.Bytes ++ e.Value.Bytes
  rw [value_dec_bytes (p + e.Label.Bytes.length) e.Value.Offset e.Value]
  rfl

/-- One `(label, value)` record parses from an entry's byte image. -/
theorem read_entry_step {s : ByteStream} {e : LabelValue} {rest : List Nat}
    (h : remBytes s = e.Bytes ++ rest) (hc : Canon e) :
    readLabelS s = (.ok (decPair e s.pos).Label, ⟨s.data, s.pos + e.Label.Bytes.length⟩) ∧
    readValueS ⟨s.data, s.pos + e.Label.Bytes.length⟩ =
      (.ok (decPair e s.pos).Value,
        ⟨s.data, s.pos + e.Label.Bytes.length + e.Value.Bytes.length⟩) ∧
    remBytes (⟨s.data, s.pos + e.Label.Bytes.length + e.Value.Bytes.length⟩ : ByteStream) =
      rest := by
  obtain ⟨hc1, hc2, hc3, hc4⟩ := hc
  have h0 : remBytes s = e.Label.Bytes ++ (e.Value.Bytes ++ rest) := by
    rw [h]; simp [LabelValue.Bytes, List.append_assoc]
  have hlab : readLabelS s =
      (.ok ⟨s.pos, 1, e.Label.Value⟩, ⟨s.data, s.pos + e.Label.Bytes.length⟩) :=
    readLabelS_ok h0 hc1
  have h1 : remBytes (⟨s.data, s.pos + e.Label.Bytes.length⟩ : ByteStream) =
      e.Value.Bytes ++ rest := by
    show s.data.drop (s.pos + e.Label.Bytes.length) = _
    exact drop_chunk h0
  have hval : readValueS (⟨s.data, s.pos + e.Label.Bytes.length⟩ : ByteStream) =
      (.ok ⟨s.pos + e.Label.Bytes.length, e.Value.HaveExtra, e.Value.Value,
          if e.Value.HaveExtra then e.Value.ExtraValue else []⟩,
        ⟨s.data, s.pos + e.Label.Bytes.length + e.Value.Bytes.length⟩) :=
    readValueS_ok h1 hc2 hc3 hc4
  have h2 : remBytes (⟨s.data,
      s.pos + e.Label.Bytes.length + e.Value.Bytes.length⟩ : ByteStream) = rest := by
    show s.data.drop (s.pos + e.Label.Bytes.length + e.Value.Bytes.length) = _
    exact drop_chunk h1
  exact ⟨hlab, hval, h2⟩

/-- One unfolding of the content loop. -/
theorem readContentLoop_step (remaining : Nat) (acc : Acc) (s : ByteStream) :
    readContentLoop remaining acc s =
      match readLabelS s with
      | (.error e, s1) => if e.isEOF then (.ok acc, s1) else (.error e, s1)
      | (.ok label, s1) =>
        match readValueS s1 with
        | (.error e, s2) => if e.isEOF then (.ok acc, s2) else (.error e, s2)
        | (.ok value, s2) =>
          let acc2 := foldEntry acc label value
          match remaining with
          | 0 => (.error .tooMany, s2)
          | r + 1 => readContentLoop r acc2 s2 := by
  rw [readContentLoop]

/-- The accumulation step over already-decoded entries. -/
def foldLV (a : Acc) (e : LabelValue) : Acc := foldEntry a e.Label e.Value

/-- The list of decoded entries for a record sequence starting at stream
position `p`. -/
def decList : List LabelValue → Nat → List LabelValue
  | [], _ => []
  | e :: t, p => decPair e p :: decList t (p + e.Bytes.length)

theorem decList_forall₂ (es : List LabelValue) : ∀ p : Nat,
    List.Forall₂ DecMatch es (decList es p) := by
  induction es with
  | nil => intro p; exact List.Forall₂.nil
  | cons e t ih =>
    intro p
    exact List.Forall₂.cons (decPair_match e p) (ih _)

/-- With enough fuel, the content loop decodes a whole list of entry
records (ending exactly at end of stream) and folds them up. -/
theorem loop_ok (es : List LabelValue) : ∀ (fuel : Nat) (acc : Acc) (s : ByteStream),
    remBytes s = (es.map LabelValue.Bytes).flatten →
    es.length ≤ fuel →
    (∀ e ∈ es, Canon e) →
    ∃ s2, readContentLoop fuel acc s = (.ok ((decList es s.pos).foldl foldLV acc), s2) := by
  induction es with
  | nil =>
    intro fuel acc s h _ _
    refine ⟨s, ?_⟩
    have hrem : remBytes s = [] := by simpa using h
    have hl := readLabelS_eof hrem
    rw [readContentLoop_step]
    simp only [hl, CSFError.isEOF, if_true, decList, List.foldl_nil]
  | cons e t ih =>
    intro fuel acc s h hf hc
    have hrem : remBytes s = e.Bytes ++ (t.map LabelValue.Bytes).flatten := by
      simpa using h
    obtain ⟨hlab, hval, hrest⟩ := read_entry_step hrem (hc e (by simp))
    cases fuel with
    | zero => simp at hf
    | succ f =>
      obtain ⟨s3, hrun⟩ := ih f (foldLV acc (decPair e s.pos))
        ⟨s.data, s.pos + e.Label.Bytes.length + e.Value.Bytes.length⟩ hrest
        (by simp at hf; omega) (fun x hx => hc x (by simp [hx]))
      refine ⟨s3, ?_⟩
      rw [readContentLoop_step]
      simp only [hlab, hval]
      have hlen : s.pos + e.Label.Bytes.length + e.Value.Bytes.length =
          s.pos + e.Bytes.length := by
        simp [LabelValue.Bytes, List.length_append]
        omega
      rw [show decList (e :: t) s.pos = decPair e s.pos :: decList t (s.pos + e.Bytes.length)
          from rfl, List.foldl_cons, ← hlen]
      exact hrun

/-- With insufficient fuel (more records than 20000 in the real call),
the content loop fails with the `too many strings` error. -/
theorem loop_tooMany : ∀ (fuel : Nat) (es : List LabelValue) (acc : Acc) (s : ByteStream),
    remBytes s = (es.map LabelValue.Bytes).flatten →
    fuel < es.length →
    (∀ e ∈ es, Canon e) →
    ∃ s2, readContentLoop fuel acc s = (.error .tooMany, s2) := by
  intro fuel
  induction fuel with
  | zero =>
    intro es acc s h hf hc
    cases es with
    | nil => simp at hf
    | cons e t =>
      have hrem : remBytes s = e.Bytes ++ (t.map LabelValue.Bytes).flatten := by
        simpa using h
      obtain ⟨hlab, hval, _⟩ := read_entry_step hrem (hc e (by simp))
      refine ⟨⟨s.data, s.pos + e.Label.Bytes.length + e.Value.Bytes.length⟩, ?_⟩
      rw [readContentLoop_step]
      simp only [hlab, hval]
  | succ f ih =>
    intro es acc s h hf hc
    cases es with
    | nil => simp at hf
    | cons e t =>
      have hrem : remBytes s = e.Bytes ++ (t.map LabelValue.Bytes).flatten := by
        simpa using h
      obtain ⟨hlab, hval, hrest⟩ := read_entry_step hrem (hc e (by simp))
      obtain ⟨s2, hrun⟩ := ih t (foldLV acc (decPair e s.pos))
        ⟨s.data, s.pos + e.Label.Bytes.length + e.Value.Bytes.length⟩ hrest
        (by simp at hf; omega) (fun x hx => hc x (by simp [hx]))
      refine ⟨s2, ?_⟩
      rw [readContentLoop_step]
      simp only [hlab, hval]
      exact hrun

/-! ## Store folding lemmas -/

theorem mget_mset_self {β : Type} (m : List (List Nat × β)) (k : List Nat) (v : β) :
    mget (mset m k v) k = some v := by
  induction m with
  | nil => simp [mset, mget]
  | cons p t ih =>
    by_cases hk : p.1 = k
    · simp [mset, mget, hk]
    · simp [mset, mget, hk, ih]

theorem mget_mset_ne {β : Type} (m : List (List Nat × β)) {k k' : List Nat} (v : β)
    (h : k ≠ k') : mget (mset m k v) k' = mget m k' := by
  have h2 : ¬(k' = k) := fun hh => h hh.symm
  induction m with
  | nil => simp [mset, mget, h, h2]
  | cons p t ih =>
    by_cases hk : p.1 = k
    · simp [mset, mget, hk, h, h2]
    · by_cases hk' : p.1 = k'
      · simp [mset, mget, hk, hk', h, h2]
      · simp [mset, mget, hk, hk', ih]

/-- On a fresh name, one accumulation step stores the pair, appends to the
order, and updates the category map in some way. -/
theorem foldLV_fresh (m : List (List Nat × LabelValue))
    (c : List (List Nat × List (List Nat))) (o : List (List Nat)) (e : LabelValue)
    (h : mget m (upper e.Label.Value) = none) :
    ∃ c2, foldLV (m, c, o) e =
      (mset m (upper e.Label.Value) e, c2, o ++ [upper e.Label.Value]) := by
  simp only [foldLV, foldEntry, h]
  exact ⟨_, rfl⟩

/-- Folding a list of entries with pairwise-distinct fresh uppercase names:
the order collects the names in sequence, other keys are untouched, and
each name maps to its entry. -/
theorem fold_spec (es : List LabelValue) : ∀ (m : List (List Nat × LabelValue))
    (c : List (List Nat × List (List Nat))) (o : List (List Nat)),
    (∀ e ∈ es, mget m (upper e.Label.Value) = none) →
    (es.map (fun e => upper e.Label.Value)).Nodup →
    (es.foldl foldLV (m, c, o)).2.2 = o ++ es.map (fun e => upper e.Label.Value) ∧
    (∀ k, (∀ e ∈ es, upper e.Label.Value ≠ k) →
      mget (es.foldl foldLV (m, c, o)).1 k = mget m k) ∧
    (∀ e ∈ es, mget (es.foldl foldLV (m, c, o)).1 (upper e.Label.Value) = some e) := by
  induction es with
  | nil => intro m c o _ _; simp
  | cons e t ih =>
    intro m c o hfresh hnd
    obtain ⟨c2, hstep⟩ := foldLV_fresh m c o e (hfresh e (by simp))
    have hnd2 : (∀ x ∈ t, ¬upper x.Label.Value = upper e.Label.Value) ∧
        (t.map (fun x => upper x.Label.Value)).Nodup := by simpa using hnd
    have hnd1 : ∀ x ∈ t, upper x.Label.Value ≠ upper e.Label.Value := hnd2.1
    have hfresh' : ∀ x ∈ t,
        mget (mset m (upper e.Label.Value) e) (upper x.Label.Value) = none := by
      intro x hx
      have hne : upper e.Label.Value ≠ upper x.Label.Value :=
        fun hh => hnd1 x hx hh.symm
      rw [mget_mset_ne _ _ hne]
      exact hfresh x (by simp [hx])
    have hnd' : (t.map (fun x => upper x.Label.Value)).Nodup := hnd2.2
    obtain ⟨hord, hpres, hlook⟩ := ih (mset m (upper e.Label.Value) e) c2
      (o ++ [upper e.Label.Value]) hfresh' hnd'
    have hfold : (e :: t).foldl foldLV (m, c, o) =
        t.foldl foldLV (mset m (upper e.Label.Value) e, c2, o ++ [upper e.Label.Value]) := by
      rw [List.foldl_cons, hstep]
    refine ⟨?_, ?_, ?_⟩
    · rw [hfold, hord]
      simp
    · intro k hk
      rw [hfold, hpres k (fun x hx => hk x (by simp [hx])),
        mget_mset_ne _ _ (hk e (by simp))]
    · intro x hx
      rcases List.mem_cons.mp hx with hx1 | hx2
      · subst hx1
        rw [hfold, hpres (upper x.Label.Value) (fun y hy => hnd1 y hy), mget_mset_self]
      · rw [hfold]
        exact hlook x hx2

/-- Serialization over the decoded order: looking each name back up in the
values map recovers each entry's bytes. -/
theorem save_map (es' : List LabelValue) (vals : List (List Nat × LabelValue))
    (h : ∀ e ∈ es', mget vals (upper e.Label.Value) = some e) :
    (es'.map (fun e => upper e.Label.Value)).map
        (fun k => ((mget vals k).getD zeroLV).Bytes) = es'.map LabelValue.Bytes := by
  induction es' with
  | nil => rfl
  | cons e t ih =>
    simp only [List.map_cons, List.cons.injEq]
    constructor
    · rw [h e (by simp)]
      rfl
    · exact ih (fun x hx => h x (by simp [hx]))

theorem decmatch_names {es es' : List LabelValue} (h : List.Forall₂ DecMatch es es') :
    es'.map (fun e => upper e.Label.Value) = es.map (fun e => upper e.Label.Value) := by
  induction h with
  | nil => rfl
  | cons hd _ ih => simp only [List.map_cons, ih, hd.1, List.cons.injEq, and_true]

theorem decmatch_bytes {es es' : List LabelValue} (h : List.Forall₂ DecMatch es es') :
    es'.map LabelValue.Bytes = es.map LabelValue.Bytes := by
  induction h with
  | nil => rfl
  | cons hd _ ih => simp only [List.map_cons, ih, hd.2]

/-! ## Header and whole-file decoding -/

theorem readHeaderS_ok (r : CSFUtil) {v nl ns un lg : Nat} {rest : List Nat} {s : ByteStream}
    (h : remBytes s = fscId ++ (putUInt32 v ++ (putUInt32 nl ++ (putUInt32 ns ++
      (putUInt32 un ++ (putUInt32 lg ++ rest)))))) :
    readHeaderS r s = (({ r with
      Version := v % 4294967296
      NumLabels := nl % 4294967296
      NumStrings := ns % 4294967296
      Unused := un % 4294967296
      Language := lg % 4294967296 }, none), ⟨s.data, s.pos + 24⟩) := by
  have hid : checkIdentifier [fscId] s = (.ok fscId, ⟨s.data, s.pos + 4⟩) :=
    checkIdentifier_ok h rfl (by simp)
  have h1 : remBytes (⟨s.data, s.pos + 4⟩ : ByteStream) =
      putUInt32 v ++ (putUInt32 nl ++ (putUInt32 ns ++
        (putUInt32 un ++ (putUInt32 lg ++ rest)))) := by
    show s.data.drop (s.pos + 4) = _
    have := drop_chunk h
    simpa using this
  have hu1 : readUInt (⟨s.data, s.pos + 4⟩ : ByteStream) =
      (.ok (v % 4294967296), ⟨s.data, s.pos + 4 + 4⟩) := readUInt_ok h1
  have h2 : remBytes (⟨s.data, s.pos + 4 + 4⟩ : ByteStream) =
      putUInt32 nl ++ (putUInt32 ns ++ (putUInt32 un ++ (putUInt32 lg ++ rest))) := by
    show s.data.drop (s.pos + 4 + 4) = _
    have := drop_chunk h1
    simpa [Nat.add_assoc] using this
  have hu2 : readUInt (⟨s.data, s.pos + 4 + 4⟩ : ByteStream) =
      (.ok (nl % 4294967296), ⟨s.data, s.pos + 4 + 4 + 4⟩) := readUInt_ok h2
  have h3 : remBytes (⟨s.data, s.pos + 4 + 4 + 4⟩ : ByteStream) =
      putUInt32 ns ++ (putUInt32 un ++ (putUInt32 lg ++ rest)) := by
    show s.data.drop (s.pos + 4 + 4 + 4) = _
    have := drop_chunk h2
    simpa [Nat.add_assoc] using this
  have hu3 : readUInt (⟨s.data, s.pos + 4 + 4 + 4⟩ : ByteStream) =
      (.ok (ns % 4294967296), ⟨s.data, s.pos + 4 + 4 + 4 + 4⟩) := readUInt_ok h3
  have h4 : remBytes (⟨s.data, s.pos + 4 + 4 + 4 + 4⟩ : ByteStream) =
      putUInt32 un ++ (putUInt32 lg ++ rest) := by
    show s.data.drop (s.pos + 4 + 4 + 4 + 4) = _
    have := drop_chunk h3
    simpa [Nat.add_assoc] using this
  have hu4 : readUInt (⟨s.data, s.pos + 4 + 4 + 4 + 4⟩ : ByteStream) =
      (.ok (un % 4294967296), ⟨s.data, s.pos + 4 + 4 + 4 + 4 + 4⟩) := readUInt_ok h4
  have h5 : remBytes (⟨s.data, s.pos + 4 + 4 + 4 + 4 + 4⟩ : ByteStream) =
      putUInt32 lg ++ rest := by
    show s.data.drop (s.pos + 4 + 4 + 4 + 4 + 4) = _
    have := drop_chunk h4
    simpa [Nat.add_assoc] using this
  have hu5 : readUInt (⟨s.data, s.pos + 4 + 4 + 4 + 4 + 4⟩ : ByteStream) =
      (.ok (lg % 4294967296), ⟨s.data, s.pos + 4 + 4 + 4 + 4 + 4 + 4⟩) := readUInt_ok h5
  simp only [readHeaderS, hid, hu1, hu2, hu3, hu4, hu5]

/-- Decoding the encoder image of a canonical entry list succeeds, and the
resulting table is the fold of byte-equivalent decoded entries. -/
theorem openAndParse_encode (v nl ns un lg : Nat) {es : List LabelValue}
    (hc : ∀ e ∈ es, Canon e)
    (hcount : es.length ≤ 20000) :
    openAndParse (encodeCSF v nl ns un lg es) =
        ({ Version := v % 4294967296
           NumLabels := nl % 4294967296
           NumStrings := ns % 4294967296
           Unused := un % 4294967296
           Language := lg % 4294967296
           Values := ((decList es 24).foldl foldLV ([], [], [])).1
           Categories := ((decList es 24).foldl foldLV ([], [], [])).2.1
           Order := ((decList es 24).foldl foldLV ([], [], [])).2.2 }, none) := by
  have hB : remBytes (⟨encodeCSF v nl ns un lg es, 0⟩ : ByteStream) =
      fscId ++ (putUInt32 v ++ (putUInt32 nl ++ (putUInt32 ns ++
        (putUInt32 un ++ (putUInt32 lg ++ (es.map LabelValue.Bytes).flatten))))) := by
    show (encodeCSF v nl ns un lg es).drop 0 = _
    simp [encodeCSF, List.append_assoc]
  have hhdr := readHeaderS_ok zeroCSF hB
  have hrem24 : remBytes (⟨encodeCSF v nl ns un lg es, 0 + 24⟩ : ByteStream) =
      (es.map LabelValue.Bytes).flatten := by
    show (encodeCSF v nl ns un lg es).drop (0 + 24) = _
    have hB2 : (encodeCSF v nl ns un lg es).drop 0 =
        (fscId ++ putUInt32 v ++ putUInt32 nl ++ putUInt32 ns ++ putUInt32 un ++
          putUInt32 lg) ++ (es.map LabelValue.Bytes).flatten := by
      simp [encodeCSF, List.append_assoc]
    have := drop_chunk hB2
    simpa using this
  obtain ⟨s2, hrun⟩ := loop_ok es 20000 ([], [], [])
    ⟨encodeCSF v nl ns un lg es, 0 + 24⟩ hrem24 hcount hc
  have h24 : (0 : Nat) + 24 = 24 := rfl
  rw [h24] at hrun
  simp only [openAndParse, hhdr, hrun]

instance (e : LabelValue) : Decidable (Canon e) := by
  unfold Canon
  infer_instance

/-- Claim C1: decoding a well-formed CSF byte stream (the encoder image of
a list of entries with case-insensitively distinct names, even text
lengths, 32-bit field bounds and at most 20000 entries) succeeds, and
re-encoding the resulting table via `Save` with entries and order
unchanged reproduces the original byte stream exactly — header scalars,
magic literals, length prefixes and obfuscated text bytes included. -/
theorem c1_save_roundtrip (v nl ns un lg : Nat) (es : List LabelValue)
    (hnd : (es.map (fun e => upper e.Label.Value)).Nodup)
    (hc : ∀ e ∈ es, Canon e)
    (hcount : es.length ≤ 20000) :
    (openAndParse (encodeCSF v nl ns un lg es)).2 = none ∧
    saveBytes (openAndParse (encodeCSF v nl ns un lg es)).1 = encodeCSF v nl ns un lg es := by
  have heq := openAndParse_encode v nl ns un lg hc hcount
  have hF := decList_forall₂ es 24
  rw [heq]
  refine ⟨rfl, ?_⟩
  have hfresh : ∀ e ∈ decList es 24,
      mget ([] : List (List Nat × LabelValue)) (upper e.Label.Value) = none :=
    fun _ _ => rfl
  have hnd' : ((decList es 24).map (fun e => upper e.Label.Value)).Nodup := by
    rw [decmatch_names hF]; exact hnd
  obtain ⟨hord, _, hlook⟩ := fold_spec (decList es 24) [] [] [] hfresh hnd'
  simp only [saveBytes]
  rw [putUInt32_mod v, putUInt32_mod nl, putUInt32_mod ns, putUInt32_mod un,
    putUInt32_mod lg, hord, List.nil_append, save_map (decList es 24) _ hlook,
    decmatch_bytes hF]
  rfl

/-- Witness for C1 at a concrete two-entry table (one entry with an extra
value). -/
theorem c1_save_roundtrip_witness :
    (openAndParse (encodeCSF 3 2 2 0 0
      [NewLabelValue (r"TXT:A") (r"Hi") (some (r"ex")),
       NewLabelValue (r"B") (r"Yo") none])).2 = none ∧
    saveBytes (openAndParse (encodeCSF 3 2 2 0 0
      [NewLabelValue (r"TXT:A") (r"Hi") (some (r"ex")),
       NewLabelValue (r"B") (r"Yo") none])).1 =
      encodeCSF 3 2 2 0 0
        [NewLabelValue (r"TXT:A") (r"Hi") (some (r"ex")),
         NewLabelValue (r"B") (r"Yo") none] :=
  c1_save_roundtrip 3 2 2 0 0 _ (by decide) (by decide) (by decide)

/-- Decoding the encoder image of more than 20000 entries hits the
`too many strings` bound. -/
theorem openAndParse_encode_tooMany (v nl ns un lg : Nat) {es : List LabelValue}
    (hc : ∀ e ∈ es, Canon e) (hcount : 20000 < es.length) :
    (openAndParse (encodeCSF v nl ns un lg es)).2 = some .tooMany := by
  have hB : remBytes (⟨encodeCSF v nl ns un lg es, 0⟩ : ByteStream) =
      fscId ++ (putUInt32 v ++ (putUInt32 nl ++ (putUInt32 ns ++
        (putUInt32 un ++ (putUInt32 lg ++ (es.map LabelValue.Bytes).flatten))))) := by
    show (encodeCSF v nl ns un lg es).drop 0 = _
    simp [encodeCSF, List.append_assoc]
  have hhdr := readHeaderS_ok (r := zeroCSF) hB
  have hrem24 : remBytes (⟨encodeCSF v nl ns un lg es, 0 + 24⟩ : ByteStream) =
      (es.map LabelValue.Bytes).flatten := by
    show (encodeCSF v nl ns un lg es).drop (0 + 24) = _
    have hB2 : (encodeCSF v nl ns un lg es).drop 0 =
        (fscId ++ putUInt32 v ++ putUInt32 nl ++ putUInt32 ns ++ putUInt32 un ++
          putUInt32 lg) ++ (es.map LabelValue.Bytes).flatten := by
      simp [encodeCSF, List.append_assoc]
    have := drop_chunk hB2
    simpa using this
  obtain ⟨s2, hrun⟩ := loop_tooMany 20000 es ([], [], [])
    ⟨encodeCSF v nl ns un lg es, 0 + 24⟩ hrem24 hcount hc
  simp only [openAndParse, hhdr, hrun]

/-- Claim C8: on a well-formed stream (encoder image of canonical
entries), decoding fails if and only if it reads more than 20000
label/value entries — exactly 20000 entries decode successfully, 20001 or
more make the open call return an error. -/
theorem c8_entry_limit (v nl ns un lg : Nat) (es : List LabelValue)
    (hc : ∀ e ∈ es, Canon e) :
    ((openAndParse (encodeCSF v nl ns un lg es)).2 = none) ↔ es.length ≤ 20000 := by
  constructor
  · intro h
    by_contra hgt
    push_neg at hgt
    have h2 := openAndParse_encode_tooMany v nl ns un lg hc hgt
    rw [h] at h2
    exact Option.noConfusion h2
  · intro hle
    rw [openAndParse_encode v nl ns un lg hc hle]

/-- Witness for C8 at a concrete one-entry table. -/
theorem c8_entry_limit_witness :
    ((openAndParse (encodeCSF 3 1 1 0 0 [NewLabelValue (r"A") (r"x") none])).2 = none) ↔
      ([NewLabelValue (r"A") (r"x") none].length ≤ 20000) :=
  c8_entry_limit 3 1 1 0 0 [NewLabelValue (r"A") (r"x") none] (by decide)

/-! ## Concrete tables for the scenario claims -/

/-- The C2 table: `New` plus one written entry. -/
def greetTable : CSFUtil :=
  writeLabelValue (NewCSF 3 0 0) (NewLabelValue (r"TXT:Greeting") (r"Hello!") none) true

set_option maxRecDepth 100000 in
/-- Claim C2 evaluated: the minimal table written as `(version=3,
numLabels=1, numStrings=1, unused=0, language=0)` with the single entry
`TXT:Greeting` / `Hello!` encodes and decodes back with `ValueString()`
exactly `Hello!` — but the category map binds `TXT` to the *empty* list,
not to `["TXT:Greeting"]`: the decoder's first-sight branch
(`mapCate[categoryName] = []string{}`) drops the first label of every
category. -/
theorem c2_greeting_eval :
    greetTable.Version = 3 ∧ greetTable.NumLabels = 1 ∧ greetTable.NumStrings = 1 ∧
    greetTable.Unused = 0 ∧ greetTable.Language = 0 ∧
    (openAndParse (saveBytes greetTable)).2 = none ∧
    (mget (openAndParse (saveBytes greetTable)).1.Values
      (strBytes (r"TXT:GREETING"))).isSome = true ∧
    ((mget (openAndParse (saveBytes greetTable)).1.Values
      (strBytes (r"TXT:GREETING"))).getD zeroLV).Value.ValueString = (r"Hello!") ∧
    (openAndParse (saveBytes greetTable)).1.Categories = [(strBytes (r"TXT"), [])] ∧
    ¬(mget (openAndParse (saveBytes greetTable)).1.Categories (strBytes (r"TXT"))
      = some [strBytes (r"TXT:Greeting")]) := by
  have henc : saveBytes greetTable =
      encodeCSF 3 1 1 0 0 [NewLabelValue (r"TXT:Greeting") (r"Hello!") none] := rfl
  rw [henc, openAndParse_encode 3 1 1 0 0 (by decide) (by decide)]
  decide

/-- The C5 entry records: two named `TXT:Foo` with different values,
separated by a third record, so that first-occurrence order is visible. -/
def dupEntries : List LabelValue :=
  [NewLabelValue (r"TXT:Foo") (r"A") none,
   NewLabelValue (r"OTHER") (r"C") none,
   NewLabelValue (r"TXT:Foo") (r"B") none]

set_option maxRecDepth 100000 in
/-- Claim C5: decoding a stream with two records named `TXT:Foo` and
different value texts yields exactly one entry under `TXT:FOO` (the key
list has a single binding for it), its value is the *second* record's
value, and the name sits at the position of its *first* occurrence in the
order list (index 0, before `OTHER`). -/
theorem c5_duplicate_decode :
    (openAndParse (encodeCSF 3 3 3 0 0 dupEntries)).2 = none ∧
    (openAndParse (encodeCSF 3 3 3 0 0 dupEntries)).1.Order
      = [strBytes (r"TXT:FOO"), strBytes (r"OTHER")] ∧
    (openAndParse (encodeCSF 3 3 3 0 0 dupEntries)).1.Values.map Prod.fst
      = [strBytes (r"TXT:FOO"), strBytes (r"OTHER")] ∧
    ((mget (openAndParse (encodeCSF 3 3 3 0 0 dupEntries)).1.Values
      (strBytes (r"TXT:FOO"))).getD zeroLV).Value.ValueString = (r"B") ∧
    ((mget (openAndParse (encodeCSF 3 3 3 0 0 dupEntries)).1.Values
      (strBytes (r"TXT:FOO"))).getD zeroLV).Value.Value
      = (EncodeUTF16 (r"B")).map bnot := by
  rw [openAndParse_encode 3 3 3 0 0 (by decide) (by decide)]
  decide

/-- A two-entry store built by plain writes: order `[A, B]`. -/
def abStore : CSFUtil :=
  writeLabelValue
    (writeLabelValue (NewCSF 3 0 0) (NewLabelValue (r"A") (r"x") none) true)
    (NewLabelValue (r"B") (r"y") none) true

/-- `WriteLabelValueBefore` of a new entry `X` before the existing
successor `B`. -/
def abAfterInsert : CSFUtil :=
  writeLabelValueBefore abStore (NewLabelValue (r"X") (r"z") none) false (strBytes (r"B"))

set_option maxRecDepth 100000 in
/-- Claim C4 evaluated at a failing input: inserting new entry `X` before
successor `B` in order `[A, B]` yields order `[A, X, X]` — the aliasing
`append(append(Order[0:pos], x), Order[pos:l]...)` overwrites the
successor slot with a second copy of the new name — instead of the
documented `[A, X, B]`; `B` survives only in the `Values` map. -/
theorem c4_insert_before_eval :
    abStore.Order = [strBytes (r"A"), strBytes (r"B")] ∧
    abAfterInsert.Order = [strBytes (r"A"), strBytes (r"X"), strBytes (r"X")] ∧
    ¬(abAfterInsert.Order = [strBytes (r"A"), strBytes (r"X"), strBytes (r"B")]) ∧
    (mget abAfterInsert.Values (strBytes (r"B"))).isSome = true := by
  decide

/-! ## The store invariant (claim C3) -/

/-- The keys of a modelled Go map. -/
def keysOf {β : Type} (m : List (List Nat × β)) : List (List Nat) := m.map Prod.fst

/-- The spec invariant: no duplicates in `Order`, and its element set
equals the key set of `Values`. -/
def Inv (rr : CSFUtil) : Prop :=
  rr.Order.Nodup ∧ (∀ k ∈ keysOf rr.Values, k ∈ rr.Order) ∧
    (∀ k ∈ rr.Order, k ∈ keysOf rr.Values)

instance (rr : CSFUtil) : Decidable (Inv rr) := by
  unfold Inv
  infer_instance

set_option maxRecDepth 100000 in
/-- Claim C3 evaluated at a failing input: the store `[A, B]` satisfies
the invariant, but a single `WriteLabelValueBefore` of a new name before
an existing successor leaves `Order = [A, X, X]` — a duplicate — while
`B` remains a key of `Values` but no longer appears in `Order`. -/
theorem c3_invariant_broken :
    Inv abStore ∧ ¬Inv abAfterInsert := by
  decide

/-! ## Category index under writes (claim C6) -/

/-- A write of a brand-new label name into an empty store. -/
def catWrite : CSFUtil :=
  writeLabelValue (NewCSF 3 0 0) (NewLabelValue (r"TXT:Foo") (r"A") none) true

set_option maxRecDepth 100000 in
/-- Counterexample to C6: inserting the fresh name `TXT:Foo` (not present
in the empty store) leaves the category index empty — no category is
assigned to the new name by the write path. -/
theorem c6_counterexample :
    mget (NewCSF 3 0 0).Values (upper (NewLabelValue (r"TXT:Foo") (r"A") none).Label.Value)
      = none ∧
    catWrite.Categories = [] ∧
    mget catWrite.Categories (strBytes (r"TXT")) = none := by
  decide

/-- Claim C6 amended: `WriteLabelValueBefore` (and `WriteLabelValue`)
never touch the category index at all — `Categories` is unchanged by
every write; the prefix rule is applied only during decoding. -/
theorem c6_categories_unchanged :
    ∀ (rr : CSFUtil) (lv : LabelValue) (ow : Bool) (succ : List Nat),
    (writeLabelValueBefore rr lv ow succ).Categories = rr.Categories ∧
    (writeLabelValue rr lv ow).Categories = rr.Categories := by
  have hB : ∀ (rr : CSFUtil) (lv : LabelValue) (ow : Bool) (succ : List Nat),
      (writeLabelValueBefore rr lv ow succ).Categories = rr.Categories := by
    intro rr lv ow succ
    simp only [writeLabelValueBefore]
    cases h1 : mget rr.Values (upper lv.Label.Value) with
    | some old => rfl
    | none =>
      cases h2 : mget rr.Values (upper succ) with
      | some x => rfl
      | none => rfl
  intro rr lv ow succ
  exact ⟨hB rr lv ow succ, hB rr lv ow []⟩

/-! ## Short reads and truncation (claim C9) -/

theorem goRead_eof (s : ByteStream) (n : Nat) (hn : 0 < n) (h : remBytes s = []) :
    goRead n s = (.error .eofE, s) := by
  unfold goRead
  have h0 : ¬(n = 0) := by omega
  rw [h]
  simp [h0]

theorem goRead_short (s : ByteStream) (n : Nat) (hne : remBytes s ≠ [])
    (hlt : (remBytes s).length < n) :
    goRead n s =
      (.error (.notEnough n (remBytes s).length), ⟨s.data, s.pos + (remBytes s).length⟩) := by
  unfold goRead
  have h0 : ¬(n = 0) := by omega
  have hemp : (remBytes s).isEmpty = false := by
    cases h : remBytes s
    · exact absurd h hne
    · rfl
  have hmin : min n (remBytes s).length = (remBytes s).length := by omega
  have hne2 : ¬((remBytes s).length = n) := by omega
  simp only [h0, if_false, hemp, Bool.false_eq_true, hmin, hne2, List.take_length]

/-- Generalized loop run: a prefix of whole records is consumed and the
loop continues (with reduced fuel and the folded accumulator) at the
suffix `T`. -/
theorem loop_shift (es : List LabelValue) : ∀ (fuel : Nat) (acc : Acc) (s : ByteStream)
    (T : List Nat),
    remBytes s = (es.map LabelValue.Bytes).flatten ++ T →
    es.length ≤ fuel →
    (∀ e ∈ es, Canon e) →
    ∃ p2, remBytes (⟨s.data, p2⟩ : ByteStream) = T ∧
      readContentLoop fuel acc s =
        readContentLoop (fuel - es.length) ((decList es s.pos).foldl foldLV acc)
          ⟨s.data, p2⟩ := by
  induction es with
  | nil =>
    intro fuel acc s T h _ _
    refine ⟨s.pos, by simpa using h, ?_⟩
    rfl
  | cons e t ih =>
    intro fuel acc s T h hf hc
    have hrem : remBytes s = e.Bytes ++ ((t.map LabelValue.Bytes).flatten ++ T) := by
      rw [h]
      simp [List.append_assoc]
    obtain ⟨hlab, hval, hrest⟩ := read_entry_step hrem (hc e (by simp))
    cases fuel with
    | zero => simp at hf
    | succ f =>
      obtain ⟨p2, hT, hrun⟩ := ih f (foldLV acc (decPair e s.pos))
        ⟨s.data, s.pos + e.Label.Bytes.length + e.Value.Bytes.length⟩ T hrest
        (by simp at hf; omega) (fun x hx => hc x (by simp [hx]))
      refine ⟨p2, hT, ?_⟩
      rw [readContentLoop_step]
      simp only [hlab, hval]
      have hlen : s.pos + e.Label.Bytes.length + e.Value.Bytes.length =
          s.pos + e.Bytes.length := by
        simp [LabelValue.Bytes, List.length_append]
        omega
      rw [show decList (e :: t) s.pos = decPair e s.pos :: decList t (s.pos + e.Bytes.length)
          from rfl, List.foldl_cons, ← hlen]
      rw [show (f + 1) - (e :: t).length = f - t.length from by simp only [List.length_cons]; omega]
      exact hrun

/-- A trailing label record whose declared name length exceeds the
available bytes: with no byte available the read reports `io.EOF`; with
at least one byte it reports the `not enough data` error. -/
theorem readLabelS_trunc {s : ByteStream} {pairs L : Nat} {bs : List Nat}
    (h : remBytes s = lblId ++ (putUInt32 pairs ++ (putUInt32 L ++ bs)))
    (hL : L < 4294967296) (hlt : bs.length < L) :
    (bs = [] → readLabelS s = (.error .eofE, ⟨s.data, s.pos + 4 + 4 + 4⟩)) ∧
    (bs ≠ [] → readLabelS s =
      (.error (.notEnough L bs.length), ⟨s.data, s.pos + 4 + 4 + 4 + bs.length⟩)) := by
  have hid : checkIdentifier [lblId] s = (.ok lblId, ⟨s.data, s.pos + 4⟩) :=
    checkIdentifier_ok h rfl (by simp)
  have h1 : remBytes (⟨s.data, s.pos + 4⟩ : ByteStream) =
      putUInt32 pairs ++ (putUInt32 L ++ bs) := by
    show s.data.drop (s.pos + 4) = _
    have := drop_chunk h
    simpa using this
  have hu1 : readUInt (⟨s.data, s.pos + 4⟩ : ByteStream) =
      (.ok (pairs % 4294967296), ⟨s.data, s.pos + 4 + 4⟩) := readUInt_ok h1
  have h2 : remBytes (⟨s.data, s.pos + 4 + 4⟩ : ByteStream) = putUInt32 L ++ bs := by
    show s.data.drop (s.pos + 4 + 4) = _
    have := drop_chunk h1
    simpa [Nat.add_assoc] using this
  have hu2 : readUInt (⟨s.data, s.pos + 4 + 4⟩ : ByteStream) =
      (.ok (L % 4294967296), ⟨s.data, s.pos + 4 + 4 + 4⟩) := readUInt_ok h2
  have hmod : L % 4294967296 = L := Nat.mod_eq_of_lt hL
  have h3 : remBytes (⟨s.data, s.pos + 4 + 4 + 4⟩ : ByteStream) = bs := by
    show s.data.drop (s.pos + 4 + 4 + 4) = _
    have := drop_chunk h2
    simpa [Nat.add_assoc] using this
  constructor
  · intro hbs
    have hg : goRead L (⟨s.data, s.pos + 4 + 4 + 4⟩ : ByteStream) =
        (.error .eofE, ⟨s.data, s.pos + 4 + 4 + 4⟩) := by
      apply goRead_eof _ _ (by omega)
      rw [h3, hbs]
    simp only [readLabelS, hid, hu1, hu2, hmod, hg]
  · intro hbs
    have hg : goRead L (⟨s.data, s.pos + 4 + 4 + 4⟩ : ByteStream) =
        (.error (.notEnough L bs.length), ⟨s.data, s.pos + 4 + 4 + 4 + bs.length⟩) := by
      have := goRead_short (⟨s.data, s.pos + 4 + 4 + 4⟩ : ByteStream) L
        (by rw [h3]; exact hbs) (by rw [h3]; exact hlt)
      rw [h3] at this
      exact this
    simp only [readLabelS, hid, hu1, hu2, hmod, hg]

/-- Claim C9 amended: a short read that finds at least one byte but fewer
than declared fails with the `not enough data` error, and a read that
finds the stream already ended reports `io.EOF`; end to end, a stream of
well-formed records followed by a label record whose declared name length
exceeds the available bytes fails with the truncation error when at least
one name byte is present, but decodes *successfully* (the EOF is treated
as a clean end of the table, even mid-record) when no name byte is
present. -/
theorem c9_short_read_behavior :
    (∀ (s : ByteStream) (n : Nat), remBytes s ≠ [] → (remBytes s).length < n →
      (goRead n s).1 = .error (.notEnough n (remBytes s).length)) ∧
    (∀ (s : ByteStream) (n : Nat), 0 < n → remBytes s = [] →
      (goRead n s).1 = .error .eofE) ∧
    (∀ (v nl ns un lg pairs L : Nat) (es : List LabelValue) (bs : List Nat),
      (∀ e ∈ es, Canon e) → es.length ≤ 20000 → L < 4294967296 → bs.length < L →
      (openAndParse (encodeCSF v nl ns un lg es ++
          (lblId ++ (putUInt32 pairs ++ (putUInt32 L ++ bs))))).2 =
        if bs.isEmpty then none else some (.notEnough L bs.length)) := by
  refine ⟨?_, ?_, ?_⟩
  · intro s n hne hlt
    rw [goRead_short s n hne hlt]
  · intro s n hn h
    rw [goRead_eof s n hn h]
  · intro v nl ns un lg pairs L es bs hc hcount hL hlt
    have hB : remBytes (⟨encodeCSF v nl ns un lg es ++
        (lblId ++ (putUInt32 pairs ++ (putUInt32 L ++ bs))), 0⟩ : ByteStream) =
        fscId ++ (putUInt32 v ++ (putUInt32 nl ++ (putUInt32 ns ++ (putUInt32 un ++
          (putUInt32 lg ++ ((es.map LabelValue.Bytes).flatten ++
            (lblId ++ (putUInt32 pairs ++ (putUInt32 L ++ bs))))))))) := by
      show (encodeCSF v nl ns un lg es ++
        (lblId ++ (putUInt32 pairs ++ (putUInt32 L ++ bs)))).drop 0 = _
      simp [encodeCSF, List.append_assoc]
    have hhdr := readHeaderS_ok zeroCSF hB
    have hrem24 : remBytes (⟨encodeCSF v nl ns un lg es ++
        (lblId ++ (putUInt32 pairs ++ (putUInt32 L ++ bs))), 0 + 24⟩ : ByteStream) =
        (es.map LabelValue.Bytes).flatten ++
          (lblId ++ (putUInt32 pairs ++ (putUInt32 L ++ bs))) := by
      show (encodeCSF v nl ns un lg es ++
        (lblId ++ (putUInt32 pairs ++ (putUInt32 L ++ bs)))).drop (0 + 24) = _
      have hB2 : (encodeCSF v nl ns un lg es ++
          (lblId ++ (putUInt32 pairs ++ (putUInt32 L ++ bs)))).drop 0 =
          (fscId ++ putUInt32 v ++ putUInt32 nl ++ putUInt32 ns ++ putUInt32 un ++
            putUInt32 lg) ++ ((es.map LabelValue.Bytes).flatten ++
              (lblId ++ (putUInt32 pairs ++ (putUInt32 L ++ bs)))) := by
        simp [encodeCSF, List.append_assoc]
      have := drop_chunk hB2
      simpa using this
    obtain ⟨p2, hT, hloopeq⟩ := loop_shift es 20000 ([], [], [])
      ⟨encodeCSF v nl ns un lg es ++ (lblId ++ (putUInt32 pairs ++ (putUInt32 L ++ bs))),
        0 + 24⟩
      (lblId ++ (putUInt32 pairs ++ (putUInt32 L ++ bs))) hrem24 hcount hc
    obtain ⟨heof, hshort⟩ := readLabelS_trunc hT hL hlt
    cases bs with
    | nil =>
      have hlab := heof rfl
      have hfinal : readContentLoop (20000 - es.length)
          ((decList es (⟨encodeCSF v nl ns un lg es ++
            (lblId ++ (putUInt32 pairs ++ (putUInt32 L ++ []))), 0 + 24⟩ :
              ByteStream).pos).foldl foldLV ([], [], []))
          ⟨(⟨encodeCSF v nl ns un lg es ++
            (lblId ++ (putUInt32 pairs ++ (putUInt32 L ++ []))), 0 + 24⟩ :
              ByteStream).data, p2⟩ =
          (.ok ((decList es (0 + 24)).foldl foldLV ([], [], [])),
            ⟨(⟨encodeCSF v nl ns un lg es ++
              (lblId ++ (putUInt32 pairs ++ (putUInt32 L ++ []))), 0 + 24⟩ :
                ByteStream).data, p2 + 4 + 4 + 4⟩) := by
        rw [readContentLoop_step]
        simp only [hlab, CSFError.isEOF, if_true]
      simp only [openAndParse, hhdr, hloopeq, hfinal, List.isEmpty_nil, if_true]
    | cons b bt =>
      have hlab := hshort (by simp)
      have hfinal : readContentLoop (20000 - es.length)
          ((decList es (⟨encodeCSF v nl ns un lg es ++
            (lblId ++ (putUInt32 pairs ++ (putUInt32 L ++ (b :: bt)))), 0 + 24⟩ :
              ByteStream).pos).foldl foldLV ([], [], []))
          ⟨(⟨encodeCSF v nl ns un lg es ++
            (lblId ++ (putUInt32 pairs ++ (putUInt32 L ++ (b :: bt)))), 0 + 24⟩ :
              ByteStream).data, p2⟩ =
          (.error (.notEnough L (b :: bt).length),
            ⟨(⟨encodeCSF v nl ns un lg es ++
              (lblId ++ (putUInt32 pairs ++ (putUInt32 L ++ (b :: bt)))), 0 + 24⟩ :
                ByteStream).data, p2 + 4 + 4 + 4 + (b :: bt).length⟩) := by
        rw [readContentLoop_step]
        simp only [hlab, CSFError.isEOF, Bool.false_eq_true, if_false]
      simp only [openAndParse, hhdr, hloopeq, hfinal, List.isEmpty_cons,
        Bool.false_eq_true, if_false]

set_option maxRecDepth 100000 in
/-- Counterexample to C9 as stated: a stream that ends right after a
label record's declared name length (5 bytes declared, none available) —
a short read strictly inside a record — does **not** make the decode
fail: decoding succeeds with an empty table. -/
theorem c9_counterexample :
    (openAndParse (encodeCSF 3 0 0 0 0 [] ++
      (lblId ++ (putUInt32 1 ++ (putUInt32 5 ++ []))))).2 = none ∧
    (openAndParse (encodeCSF 3 0 0 0 0 [] ++
      (lblId ++ (putUInt32 1 ++ (putUInt32 5 ++ []))))).1.Order = [] := by
  decide

/-- Witness for the amended C9 at concrete inputs. -/
theorem c9_short_read_behavior_witness :
    ((goRead 5 (⟨[1, 2, 3], 0⟩ : ByteStream)).1 = .error (.notEnough 5 3)) ∧
    ((goRead 5 (⟨[], 0⟩ : ByteStream)).1 = .error .eofE) ∧
    ((openAndParse (encodeCSF 3 0 0 0 0 [] ++
        (lblId ++ (putUInt32 1 ++ (putUInt32 7 ++ [65, 66]))))).2 =
      some (.notEnough 7 2)) := by
  refine ⟨?_, ?_, ?_⟩
  · exact c9_short_read_behavior.1 ⟨[1, 2, 3], 0⟩ 5 (by decide) (by decide)
  · exact c9_short_read_behavior.2.1 ⟨[], 0⟩ 5 (by decide) (by decide)
  · exact c9_short_read_behavior.2.2 3 0 0 0 0 1 7 [] [65, 66]
      (by decide) (by decide) (by decide) (by decide)

/-! ## Format errors and failed opens (claim C10) -/

/-- Is the root cause of an error a magic-identifier mismatch? -/
def isFormatErr : CSFError → Bool
  | .badId _ _ => true
  | .wrapCtx _ _ e => isFormatErr e
  | _ => false

/-- A format error produced by the decoder is a single wrap carrying the
byte offset around a `badId` carrying the expected identifiers. -/
def formatShaped (e : CSFError) : Prop :=
  isFormatErr e = true → ∃ ctx off ids got, e = .wrapCtx ctx off (.badId ids got)

theorem formatShaped_of_not {e : CSFError} (h : isFormatErr e = false) :
    formatShaped e := by
  intro h2
  rw [h] at h2
  exact absurd h2 Bool.false_ne_true

theorem readDWORD_err {s : ByteStream} {e : CSFError} {s1 : ByteStream}
    (h : readDWORD s = (.error e, s1)) : e = .eofE ∨ e = .notADword := by
  simp only [readDWORD] at h
  split at h
  · simp only [Prod.mk.injEq, Except.error.injEq] at h
    exact Or.inl h.1.symm
  · split at h
    · simp at h
    · simp only [Prod.mk.injEq, Except.error.injEq] at h
      exact Or.inr h.1.symm

theorem readUInt_err {s : ByteStream} {e : CSFError} {s1 : ByteStream}
    (h : readUInt s = (.error e, s1)) : e = .eofE ∨ e = .notADword := by
  simp only [readUInt] at h
  split at h
  · rename_i e0 s2 heq
    simp only [Prod.mk.injEq, Except.error.injEq] at h
    obtain ⟨h1, h2⟩ := h
    subst h1
    exact readDWORD_err heq
  · simp at h

theorem goRead_err {s : ByteStream} {n : Nat} {e : CSFError} {s1 : ByteStream}
    (h : goRead n s = (.error e, s1)) : e = .eofE ∨ ∃ w g, e = .notEnough w g := by
  simp only [goRead] at h
  split at h
  · simp at h
  · split at h
    · simp only [Prod.mk.injEq, Except.error.injEq] at h
      exact Or.inl h.1.symm
    · split at h
      · simp at h
      · simp only [Prod.mk.injEq, Except.error.injEq] at h
        exact Or.inr ⟨_, _, h.1.symm⟩

theorem checkIdentifier_err {ids : List (List Nat)} {s : ByteStream} {e : CSFError}
    {s1 : ByteStream} (h : checkIdentifier ids s = (.error e, s1)) :
    e = .eofE ∨ e = .notADword ∨ ∃ got, e = .badId ids got := by
  simp only [checkIdentifier] at h
  split at h
  · rename_i e0 s2 heq
    simp only [Prod.mk.injEq, Except.error.injEq] at h
    obtain ⟨h1, h2⟩ := h
    subst h1
    rcases readDWORD_err heq with h1 | h1
    · exact Or.inl h1
    · exact Or.inr (Or.inl h1)
  · rename_i d s2 heq
    split at h
    · simp at h
    · simp only [Prod.mk.injEq, Except.error.injEq] at h
      exact Or.inr (Or.inr ⟨d, h.1.symm⟩)

/-- Any error a wrapped `checkIdentifier` call can produce has the format
shape when its root is a `badId`. -/
theorem formatShaped_wrap {ctx : ErrCtx} {off : Nat} {e0 : CSFError}
    {ids : List (List Nat)}
    (h : e0 = .eofE ∨ e0 = .notADword ∨ ∃ got, e0 = .badId ids got) :
    formatShaped (.wrapCtx ctx off e0) := by
  rcases h with h | h | ⟨got, h⟩
  · subst h; exact formatShaped_of_not rfl
  · subst h; exact formatShaped_of_not rfl
  · subst h; exact fun _ => ⟨ctx, off, ids, got, rfl⟩

theorem readLabelS_err {s : ByteStream} {e : CSFError} {s1 : ByteStream}
    (h : readLabelS s = (.error e, s1)) : formatShaped e := by
  simp only [readLabelS] at h
  split at h
  · rename_i e0 sA heq
    simp only [Prod.mk.injEq, Except.error.injEq] at h
    obtain ⟨h1, h2⟩ := h
    subst h1
    exact formatShaped_wrap (checkIdentifier_err heq)
  · rename_i d sA heq
    split at h
    · rename_i e1 sB heq1
      simp only [Prod.mk.injEq, Except.error.injEq] at h
      obtain ⟨h1, h2⟩ := h
      subst h1
      rcases readUInt_err heq1 with h1 | h1 <;> · subst h1; exact formatShaped_of_not rfl
    · rename_i pairs sB heq1
      split at h
      · rename_i e2 sC heq2
        simp only [Prod.mk.injEq, Except.error.injEq] at h
        obtain ⟨h1, h2⟩ := h
        subst h1
        rcases readUInt_err heq2 with h1 | h1 <;> · subst h1; exact formatShaped_of_not rfl
      · rename_i len sC heq2
        split at h
        · rename_i e3 sD heq3
          simp only [Prod.mk.injEq, Except.error.injEq] at h
          obtain ⟨h1, h2⟩ := h
          subst h1
          rcases goRead_err heq3 with h1 | ⟨w, g, h1⟩ <;>
            · subst h1; exact formatShaped_of_not rfl
        · simp at h

theorem readValueS_err {s : ByteStream} {e : CSFError} {s1 : ByteStream}
    (h : readValueS s = (.error e, s1)) : formatShaped e := by
  simp only [readValueS] at h
  split at h
  · rename_i e0 sA heq
    simp only [Prod.mk.injEq, Except.error.injEq] at h
    obtain ⟨h1, h2⟩ := h
    subst h1
    exact formatShaped_wrap (checkIdentifier_err heq)
  · rename_i d sA heq
    split at h
    · rename_i e1 sB heq1
      simp only [Prod.mk.injEq, Except.error.injEq] at h
      obtain ⟨h1, h2⟩ := h
      subst h1
      rcases readUInt_err heq1 with h1 | h1 <;> · subst h1; exact formatShaped_of_not rfl
    · rename_i len sB heq1
      split at h
      · rename_i e2 sC heq2
        simp only [Prod.mk.injEq, Except.error.injEq] at h
        obtain ⟨h1, h2⟩ := h
        subst h1
        rcases goRead_err heq2 with h1 | ⟨w, g, h1⟩ <;>
          · subst h1; exact formatShaped_of_not rfl
      · rename_i value sC heq2
        split at h
        · split at h
          · rename_i e3 sD heq3
            simp only [Prod.mk.injEq, Except.error.injEq] at h
            obtain ⟨h1, h2⟩ := h
            subst h1
            rcases goRead_err heq3 with h1 | ⟨w, g, h1⟩ <;>
              · subst h1; exact formatShaped_of_not rfl
          · simp at h
        · simp at h

theorem loop_err : ∀ (fuel : Nat) (acc : Acc) (s : ByteStream) (e : CSFError)
    (s2 : ByteStream), readContentLoop fuel acc s = (.error e, s2) → formatShaped e := by
  intro fuel
  induction fuel with
  | zero =>
    intro acc s e s2 h
    rw [readContentLoop_step] at h
    split at h
    · rename_i e0 sA heq
      split at h
      · simp at h
      · simp only [Prod.mk.injEq, Except.error.injEq] at h
        obtain ⟨h1, h2⟩ := h
        subst h1
        exact readLabelS_err heq
    · rename_i lab sA heq
      split at h
      · rename_i e1 sB heq1
        split at h
        · simp at h
        · simp only [Prod.mk.injEq, Except.error.injEq] at h
          obtain ⟨h1, h2⟩ := h
          subst h1
          exact readValueS_err heq1
      · rename_i value sB heq1
        simp only [Prod.mk.injEq, Except.error.injEq] at h
        obtain ⟨h1, h2⟩ := h
        subst h1
        exact formatShaped_of_not rfl
  | succ f ih =>
    intro acc s e s2 h
    rw [readContentLoop_step] at h
    split at h
    · rename_i e0 sA heq
      split at h
      · simp at h
      · simp only [Prod.mk.injEq, Except.error.injEq] at h
        obtain ⟨h1, h2⟩ := h
        subst h1
        exact readLabelS_err heq
    · rename_i lab sA heq
      split at h
      · rename_i e1 sB heq1
        split at h
        · simp at h
        · simp only [Prod.mk.injEq, Except.error.injEq] at h
          obtain ⟨h1, h2⟩ := h
          subst h1
          exact readValueS_err heq1
      · rename_i value sB heq1
        exact ih _ _ _ _ h

/-- `readHeader` only assigns the five header scalar fields; the entry
maps and the order are returned exactly as given. -/
theorem readHeaderS_fields (r : CSFUtil) (s : ByteStream) :
    (readHeaderS r s).1.1.Values = r.Values ∧
    (readHeaderS r s).1.1.Categories = r.Categories ∧
    (readHeaderS r s).1.1.Order = r.Order := by
  simp only [readHeaderS]
  split
  · exact ⟨rfl, rfl, rfl⟩
  · split
    · exact ⟨rfl, rfl, rfl⟩
    · split
      · exact ⟨rfl, rfl, rfl⟩
      · split
        · exact ⟨rfl, rfl, rfl⟩
        · split
          · exact ⟨rfl, rfl, rfl⟩
          · split
            · exact ⟨rfl, rfl, rfl⟩
            · exact ⟨rfl, rfl, rfl⟩

/-- Errors returned by `readHeader` are format-shaped when their root is
a bad identifier. -/
theorem readHeaderS_err {r : CSFUtil} {s : ByteStream} {r1 : CSFUtil} {e : CSFError}
    {s1 : ByteStream} (h : readHeaderS r s = ((r1, some e), s1)) : formatShaped e := by
  simp only [readHeaderS] at h
  split at h
  · rename_i e0 sA heq
    simp only [Prod.mk.injEq, Option.some.injEq] at h
    obtain ⟨⟨h1, h2⟩, h3⟩ := h
    subst h2
    exact formatShaped_wrap (checkIdentifier_err heq)
  · rename_i d sA heq
    split at h
    · rename_i e1 sB heq1
      simp only [Prod.mk.injEq, Option.some.injEq] at h
      obtain ⟨⟨h1, h2⟩, h3⟩ := h
      subst h2
      rcases readUInt_err heq1 with h1 | h1 <;> · subst h1; exact formatShaped_of_not rfl
    · rename_i v1 sB heq1
      split at h
      · rename_i e2 sC heq2
        simp only [Prod.mk.injEq, Option.some.injEq] at h
        obtain ⟨⟨h1, h2⟩, h3⟩ := h
        subst h2
        rcases readUInt_err heq2 with h1 | h1 <;> · subst h1; exact formatShaped_of_not rfl
      · rename_i v2 sC heq2
        split at h
        · rename_i e3 sD heq3
          simp only [Prod.mk.injEq, Option.some.injEq] at h
          obtain ⟨⟨h1, h2⟩, h3⟩ := h
          subst h2
          rcases readUInt_err heq3 with h1 | h1 <;> · subst h1; exact formatShaped_of_not rfl
        · rename_i v3 sD heq3
          split at h
          · rename_i e4 sE heq4
            simp only [Prod.mk.injEq, Option.some.injEq] at h
            obtain ⟨⟨h1, h2⟩, h3⟩ := h
            subst h2
            rcases readUInt_err heq4 with h1 | h1 <;> · subst h1; exact formatShaped_of_not rfl
          · rename_i v4 sE heq4
            split at h
            · rename_i e5 sF heq5
              simp only [Prod.mk.injEq, Option.some.injEq] at h
              obtain ⟨⟨h1, h2⟩, h3⟩ := h
              subst h2
              rcases readUInt_err heq5 with h1 | h1 <;>
                · subst h1; exact formatShaped_of_not rfl
            · simp at h

/-- Claim C10: whenever `Open` fails — in particular with a format error
(wrong magic identifier where a section is expected) — no partial table
is returned: the entry mapping, category index and order list are all
empty; and a format error is always a wrap that names the expected
identifier set and the byte offset around the mismatching bytes. -/
theorem c10_format_error (data : List Nat) (rr : CSFUtil) (e : CSFError)
    (h : openAndParse data = (rr, some e)) :
    (rr.Values = [] ∧ rr.Categories = [] ∧ rr.Order = []) ∧
    (isFormatErr e = true →
      ∃ ctx off ids got, e = .wrapCtx ctx off (.badId ids got)) := by
  unfold openAndParse at h
  split at h
  · rename_i r1 e0 sA heq
    simp only [Prod.mk.injEq, Option.some.injEq] at h
    obtain ⟨h1, h2⟩ := h
    subst h1
    subst h2
    have hf := readHeaderS_fields zeroCSF ⟨data, 0⟩
    rw [heq] at hf
    exact ⟨hf, readHeaderS_err heq⟩
  · rename_i r1 sA heq
    split at h
    · rename_i e1 sB heq1
      simp only [Prod.mk.injEq, Option.some.injEq] at h
      obtain ⟨h1, h2⟩ := h
      subst h1
      subst h2
      have hf := readHeaderS_fields zeroCSF ⟨data, 0⟩
      rw [heq] at hf
      exact ⟨hf, loop_err _ _ _ _ _ heq1⟩
    · simp at h

set_option maxRecDepth 100000 in
/-- Witness for C10: a stream with a wrong file magic. -/
theorem c10_format_error_witness :
    ((zeroCSF.Values = [] ∧ zeroCSF.Categories = [] ∧ zeroCSF.Order = []) ∧
     (isFormatErr (.wrapCtx .header 4 (.badId [fscId] [88, 88, 88, 88])) = true →
      ∃ ctx off ids got, (CSFError.wrapCtx .header 4 (.badId [fscId] [88, 88, 88, 88])) =
        .wrapCtx ctx off (.badId ids got))) :=
  c10_format_error [88, 88, 88, 88] zeroCSF
    (.wrapCtx .header 4 (.badId [fscId] [88, 88, 88, 88])) (by decide)

end CSF